import Mathlib

/-!
# The gorealis job builder (`job.go`)

A shallow embedding of `AuroraJob` and its chained mutators, followed by theorems about
the port allocator, the job identity, the owner fields, the constraint list, the executor
descriptor, the resource table, the fetch and label lists and the container.

## How the Go program is represented

* A Go pointer to a scalar (`*string`, `*float64`, `*int64`, `*bool`) is an `Option Addr`:
  `none` is `nil`, `some a` is the address of cell `a` in the cell list of that type kept in
  `Heap`.  Allocation appends a cell; writing through a pointer replaces a cell; writing
  through `nil` is a run-time panic, rendered as the result `none`.
* The `JobKey` is written in place and is reachable through two fields, so it lives in the
  heap as well.  Every other struct pointer is reachable through one field only, or is
  never written once built, and is held by value (`Option` where Go may hold `nil`).
* Go's `int` is the 64-bit two's-complement integer: `+=` wraps (`wrapInt`).
* A `float64` is carried as its IEEE-754 bit pattern; the builder only stores it.
* A slice is carried as the list of its elements.  For the three slices that `NewJob` builds
  with `make(..., 0)` a flag beside the list records that the field holds an allocated
  slice, which tells an empty slice from `nil` (`isNilSlice`); the mutators only append.
-/

set_option linter.dupNamespace false

namespace realis

/-! ## Machine integers and decimal rendering -/

/-- Smallest value of Go's `int` on a 64-bit platform. -/
def minInt : Int := -9223372036854775808

/-- Largest value of Go's `int` on a 64-bit platform. -/
def maxInt : Int := 9223372036854775807

/-- Result of an `int` addition: the mathematical sum reduced to the two's-complement
range `[minInt, maxInt]`. -/
def wrapInt (x : Int) : Int := (x + 9223372036854775808) % 18446744073709551616 - 9223372036854775808

/-- Decimal rendering of an `int`, as `strconv.Itoa` produces it: the digits of the
magnitude, preceded by `-` for a negative number. -/
def strconv.Itoa : Int → String
  | Int.ofNat n => Nat.repr n
  | Int.negSucc n => "-" ++ Nat.repr (n + 1)

/-- A `float64`, carried as its bit pattern. -/
structure Float64 where
  bits : Nat
deriving DecidableEq, Repr

/-! ## Heap cells -/

/-- Address of a heap cell: its index in the cell list of its type. -/
abbrev Addr := Nat

/-- Whether a slice is `nil`: it has no element and its field was never assigned an allocated
slice.  The builder only ever appends to a slice, and `append` of an element yields an
allocated slice, so a slice with an element is not `nil`. -/
def isNilSlice {α : Type} (made : Bool) (elems : List α) : Bool := !made && elems.isEmpty

/-- Allocation: the cell list with one more cell, and the address of that cell. -/
def alloc {α : Type} (cells : List α) (v : α) : List α × Addr := (cells ++ [v], cells.length)

/-- Reading through a pointer; `none` for `nil`. -/
def load {α : Type} (cells : List α) (p : Option Addr) : Option α := p.bind (fun a => cells[a]?)

/-- Writing through a pointer; `none` (a panic) for `nil`. -/
def store {α : Type} (cells : List α) (p : Option Addr) (v : α) : Option (List α) :=
  match p with
  | none => none
  | some a => if a < cells.length then some (cells.set a v) else none

/-! ## The generated `aurora` records, as far as `job.go` uses them -/

namespace aurora

structure JobKey where
  Role : String := ""
  Environment : String := ""
  Name : String := ""
deriving DecidableEq, Repr

structure Identity where
  User : String := ""
deriving DecidableEq, Repr

/-- A resource entry: a union of pointers, of which the builder sets one. -/
structure Resource where
  NumCpus : Option Addr := none
  RamMb : Option Addr := none
  DiskMb : Option Addr := none
  NamedPort : Option Addr := none
deriving DecidableEq, Repr

structure ExecutorConfig where
  Name : String := ""
  Data : String := ""
deriving DecidableEq, Repr

structure MesosFetcherURI where
  Value : String := ""
  Extract : Option Addr := none
  Cache : Option Addr := none
deriving DecidableEq, Repr

structure Metadata where
  Key : String := ""
  Value : String := ""
deriving DecidableEq, Repr

structure ValueConstraint where
  Negated : Bool := false
  Values : List String := []
deriving DecidableEq, Repr

structure LimitConstraint where
  Limit : Int := 0
deriving DecidableEq, Repr

structure TaskConstraint where
  Value : Option ValueConstraint := none
  Limit : Option LimitConstraint := none
deriving DecidableEq, Repr

structure Constraint where
  Name : String := ""
  Constraint : Option TaskConstraint := none
deriving DecidableEq, Repr

/-- Modelled from the spec: the container descriptor that `Build()` of a container builder
returns (`container.go` and the generated record are outside the source at hand).  The spec
has two variants, "process-style" (Mesos) and "image-style" (Docker); the payload is the
image the variant names, if any. -/
inductive Container where
  | Mesos (image : Option String)
  | Docker (image : String)
deriving DecidableEq, Repr

/-- The task configuration.  A slice field is carried as the list of its elements.  For
`Constraints`, `MesosFetcherUris` and `Metadata`, the three slices that `NewJob` builds with
`make(..., 0)`, the flag beside the list records that the field has been assigned an
allocated slice; it is `false` in the zero value of the record, whose slices are `nil`. -/
structure TaskConfig where
  Job : Option Addr := none
  Owner : Option Identity := none
  IsService : Bool := false
  MaxTaskFailures : Int := 0
  Tier : Option Addr := none
  Resources : List Resource := []
  Constraints : List Constraint := []
  ConstraintsMade : Bool := false
  MesosFetcherUris : List MesosFetcherURI := []
  MesosFetcherUrisMade : Bool := false
  ExecutorConfig : Option ExecutorConfig := none
  Metadata : List Metadata := []
  MetadataMade : Bool := false
  Container : Option Container := none
deriving DecidableEq, Repr

structure JobConfiguration where
  Key : Option Addr := none
  Owner : Option Identity := none
  CronSchedule : Option Addr := none
  CronCollisionPolicy : Int := 0
  TaskConfig : TaskConfig := {}
  InstanceCount : Int := 0
deriving DecidableEq, Repr

/-- The generated constructor `aurora.NewExecutorConfig`: a zero-valued record. -/
def NewExecutorConfig : ExecutorConfig := {}

end aurora

/-- Modelled from the spec: the `Container` interface of `container.go`, whose only method
is `Build`; a container builder is carried as the descriptor it builds. -/
structure Container where
  Build : aurora.Container
deriving DecidableEq, Repr

/-- Modelled from the spec: `NewMesosContainer()`, the bare process-style container that
`NewJob` installs by default. -/
def NewMesosContainer : Container := ⟨aurora.Container.Mesos none⟩

/-- The cells that pointers held by a builder refer to. -/
structure Heap where
  strings : List String := []
  float64s : List Float64 := []
  int64s : List Int := []
  bools : List Bool := []
  jobKeys : List aurora.JobKey := []
deriving DecidableEq, Repr

/-- The builder: the three fields of the Go struct, and the heap its pointers refer to.
`jobConfig` and its `TaskConfig` are assigned once in `NewJob` and never replaced, so they
are held in place. -/
structure AuroraJob where
  jobConfig : aurora.JobConfiguration := {}
  resources : List (String × aurora.Resource) := []
  portCount : Int := 0
  heap : Heap := {}
deriving DecidableEq, Repr

/-- Name stem of the ports that `AddPorts` generates. -/
def portNameStem : String := "org.apache.aurora.port."

/-! ## `NewJob` and the mutators -/

/-- The constructor `NewJob`: one job key shared by the job and the task configuration, a
default Mesos container, a cpu, a ram and a disk resource each pointing at a fresh zero cell, the same
three resources in the map and in the task's resource list, empty allocated fetch,
label and constraint slices, and port count zero. -/
def NewJob : AuroraJob :=
  let jobKey : Addr := 0
  let numCpus : aurora.Resource := { NumCpus := some 0 }
  let ramMb : aurora.Resource := { RamMb := some 0 }
  let diskMb : aurora.Resource := { DiskMb := some 1 }
  { jobConfig :=
      { Key := some jobKey
        TaskConfig :=
          { Job := some jobKey
            MesosFetcherUris := []
            MesosFetcherUrisMade := true
            Metadata := []
            MetadataMade := true
            Constraints := []
            ConstraintsMade := true
            Container := some NewMesosContainer.Build
            Resources := [numCpus, ramMb, diskMb] } }
    resources := [("cpu", numCpus), ("ram", ramMb), ("disk", diskMb)]
    portCount := 0
    heap :=
      { jobKeys := [{}]
        float64s := [⟨0⟩]
        int64s := [0, 0] } }

namespace AuroraJob

/-- The task's resource list, `j.jobConfig.TaskConfig.Resources`. -/
abbrev Resources (j : AuroraJob) : List aurora.Resource := j.jobConfig.TaskConfig.Resources

/-- The task's constraint list, `j.jobConfig.TaskConfig.Constraints`. -/
abbrev Constraints (j : AuroraJob) : List aurora.Constraint := j.jobConfig.TaskConfig.Constraints

/-- In-place update of the job key that `j.jobConfig.Key` points at. -/
def updateKey (f : aurora.JobKey → aurora.JobKey) (j : AuroraJob) : Option AuroraJob :=
  match load j.heap.jobKeys j.jobConfig.Key with
  | none => none
  | some key =>
    match store j.heap.jobKeys j.jobConfig.Key (f key) with
    | none => none
    | some keys => some { j with heap.jobKeys := keys }

def Environment (env : String) (j : AuroraJob) : Option AuroraJob :=
  updateKey (fun key => { key with Environment := env }) j

def Role (role : String) (j : AuroraJob) : Option AuroraJob :=
  match updateKey (fun key => { key with Role := role }) j with
  | none => none
  | some j =>
    let identity : aurora.Identity := { User := role }
    let j := { j with jobConfig.Owner := some identity }
    some { j with jobConfig.TaskConfig.Owner := some identity }

def Name (name : String) (j : AuroraJob) : Option AuroraJob :=
  updateKey (fun key => { key with Name := name }) j

def ExecutorName (name : String) (j : AuroraJob) : AuroraJob :=
  let j :=
    if j.jobConfig.TaskConfig.ExecutorConfig = none then
      { j with jobConfig.TaskConfig.ExecutorConfig := some aurora.NewExecutorConfig }
    else j
  { j with jobConfig.TaskConfig.ExecutorConfig :=
      j.jobConfig.TaskConfig.ExecutorConfig.map (fun e => { e with Name := name }) }

def ExecutorData (data : String) (j : AuroraJob) : AuroraJob :=
  let j :=
    if j.jobConfig.TaskConfig.ExecutorConfig = none then
      { j with jobConfig.TaskConfig.ExecutorConfig := some aurora.NewExecutorConfig }
    else j
  { j with jobConfig.TaskConfig.ExecutorConfig :=
      j.jobConfig.TaskConfig.ExecutorConfig.map (fun e => { e with Data := data }) }

def CPU (cpus : Float64) (j : AuroraJob) : Option AuroraJob :=
  match j.resources.lookup "cpu" with
  | none => none
  | some r =>
    match store j.heap.float64s r.NumCpus cpus with
    | none => none
    | some cells => some { j with heap.float64s := cells }

def RAM (ram : Int) (j : AuroraJob) : Option AuroraJob :=
  match j.resources.lookup "ram" with
  | none => none
  | some r =>
    match store j.heap.int64s r.RamMb ram with
    | none => none
    | some cells => some { j with heap.int64s := cells }

def Disk (disk : Int) (j : AuroraJob) : Option AuroraJob :=
  match j.resources.lookup "disk" with
  | none => none
  | some r =>
    match store j.heap.int64s r.DiskMb disk with
    | none => none
    | some cells => some { j with heap.int64s := cells }

/-- The setter `Tier` writes through the `Tier` pointer of the task configuration; it does
not assign the pointer. -/
def Tier (tier : String) (j : AuroraJob) : Option AuroraJob :=
  match store j.heap.strings j.jobConfig.TaskConfig.Tier tier with
  | none => none
  | some cells => some { j with heap.strings := cells }

def MaxFailure (maxFail : Int) (j : AuroraJob) : AuroraJob :=
  { j with jobConfig.TaskConfig.MaxTaskFailures := maxFail }

def InstanceCount (instCount : Int) (j : AuroraJob) : AuroraJob :=
  { j with jobConfig.InstanceCount := instCount }

/-- The setter `CronSchedule` stores the address of its parameter `cron`. -/
def CronSchedule (cron : String) (j : AuroraJob) : AuroraJob :=
  let (cells, p) := alloc j.heap.strings cron
  let j := { j with heap.strings := cells }
  { j with jobConfig.CronSchedule := some p }

def CronCollisionPolicy (policy : Int) (j : AuroraJob) : AuroraJob :=
  { j with jobConfig.CronCollisionPolicy := policy }

def GetInstanceCount (j : AuroraJob) : Int := j.jobConfig.InstanceCount

def IsService (isService : Bool) (j : AuroraJob) : AuroraJob :=
  { j with jobConfig.TaskConfig.IsService := isService }

/-- The accessor `JobKey` returns the pointer held in `j.jobConfig.Key`. -/
def JobKey (j : AuroraJob) : Option Addr := j.jobConfig.Key

def JobConfig (j : AuroraJob) : aurora.JobConfiguration := j.jobConfig

def TaskConfig (j : AuroraJob) : aurora.TaskConfig := j.jobConfig.TaskConfig

/-- The `range values` loop of `AddURIs`; `extract` and `cache` are the addresses of the
two parameters. -/
def AddURIs.loop (extract cache : Addr) : List String → AuroraJob → AuroraJob
  | [], j => j
  | value :: rest, j =>
    AddURIs.loop extract cache rest
      { j with jobConfig.TaskConfig.MesosFetcherUris :=
          j.jobConfig.TaskConfig.MesosFetcherUris ++
            [{ Value := value, Extract := some extract, Cache := some cache }] }

def AddURIs (extract cache : Bool) (values : List String) (j : AuroraJob) : AuroraJob :=
  let (cells, pe) := alloc j.heap.bools extract
  let (cells, pc) := alloc cells cache
  AddURIs.loop pe pc values { j with heap.bools := cells }

def AddLabel (key value : String) (j : AuroraJob) : AuroraJob :=
  { j with jobConfig.TaskConfig.Metadata :=
      j.jobConfig.TaskConfig.Metadata ++ [{ Key := key, Value := value }] }

/-- The `range names` loop of `AddNamedPorts`.  `name` is the address of the loop variable:
the range clause declares it once for the whole loop (the language version of this
repository predates per-iteration loop variables), each iteration assigns the next element
to it, and the appended entry holds its address. -/
def AddNamedPorts.loop (name : Addr) : List String → AuroraJob → AuroraJob
  | [], j => j
  | n :: rest, j =>
    let j := { j with heap.strings := j.heap.strings.set name n }
    AddNamedPorts.loop name rest
      { j with jobConfig.TaskConfig.Resources :=
          j.jobConfig.TaskConfig.Resources ++ [{ NamedPort := some name }] }

def AddNamedPorts (names : List String) (j : AuroraJob) : AuroraJob :=
  let j := { j with portCount := wrapInt (j.portCount + names.length) }
  let (cells, name) := alloc j.heap.strings ""
  AddNamedPorts.loop name names { j with heap.strings := cells }

/-- The counting loop of `AddPorts`, `for i := start; i < j.portCount; i++`, by the number
of iterations still to run.  `portName` is declared in the loop body, so every iteration
has a cell of its own. -/
def AddPorts.loop : Nat → Int → AuroraJob → AuroraJob
  | 0, _, j => j
  | n + 1, i, j =>
    let (cells, portName) := alloc j.heap.strings (portNameStem ++ strconv.Itoa i)
    let j := { j with heap.strings := cells }
    AddPorts.loop n (i + 1)
      { j with jobConfig.TaskConfig.Resources :=
          j.jobConfig.TaskConfig.Resources ++ [{ NamedPort := some portName }] }

/-- The mutator `AddPorts`: the loop runs for `i = start, start + 1, ...` while
`i < j.portCount`, that is `j.portCount - start` times when that is positive and not at all otherwise. -/
def AddPorts (num : Int) (j : AuroraJob) : AuroraJob :=
  let start := j.portCount
  let j := { j with portCount := wrapInt (j.portCount + num) }
  AddPorts.loop (j.portCount - start).toNat start j

def AddValueConstraint (name : String) (negated : Bool) (values : List String)
    (j : AuroraJob) : AuroraJob :=
  { j with jobConfig.TaskConfig.Constraints :=
      j.jobConfig.TaskConfig.Constraints ++
        [{ Name := name
           Constraint := some
             { Value := some { Negated := negated, Values := values }
               Limit := none } }] }

def AddLimitConstraint (name : String) (limit : Int) (j : AuroraJob) : AuroraJob :=
  { j with jobConfig.TaskConfig.Constraints :=
      j.jobConfig.TaskConfig.Constraints ++
        [{ Name := name
           Constraint := some
             { Value := none
               Limit := some { Limit := limit } } }] }

def AddDedicatedConstraint (role name : String) (j : AuroraJob) : AuroraJob :=
  AddValueConstraint "dedicated" false [role ++ "/" ++ name] j

def Container (container : realis.Container) (j : AuroraJob) : AuroraJob :=
  { j with jobConfig.TaskConfig.Container := some container.Build }

/-- The name an entry of the resource list carries: what its `NamedPort` pointer refers
to. -/
def portName (j : AuroraJob) (r : aurora.Resource) : Option String :=
  load j.heap.strings r.NamedPort

/-- The job key behind the pointer that `JobKey` returns. -/
def key (j : AuroraJob) : Option aurora.JobKey := load j.heap.jobKeys j.JobKey

end AuroraJob

/-! ## Sequences of mutator calls -/

/-- One call of a public mutator, with its arguments. -/
inductive Call where
  | Environment (env : String)
  | Role (role : String)
  | Name (name : String)
  | ExecutorName (name : String)
  | ExecutorData (data : String)
  | CPU (cpus : Float64)
  | RAM (ram : Int)
  | Disk (disk : Int)
  | Tier (tier : String)
  | MaxFailure (maxFail : Int)
  | InstanceCount (instCount : Int)
  | CronSchedule (cron : String)
  | CronCollisionPolicy (policy : Int)
  | IsService (isService : Bool)
  | AddURIs (extract cache : Bool) (values : List String)
  | AddLabel (key value : String)
  | AddNamedPorts (names : List String)
  | AddPorts (num : Int)
  | AddValueConstraint (name : String) (negated : Bool) (values : List String)
  | AddLimitConstraint (name : String) (limit : Int)
  | AddDedicatedConstraint (role name : String)
  | Container (container : realis.Container)
deriving DecidableEq, Repr

/-- Effect of one call on the builder; `none` when the call panics. -/
def Call.run : Call → AuroraJob → Option AuroraJob
  | .Environment env, j => j.Environment env
  | .Role role, j => j.Role role
  | .Name name, j => j.Name name
  | .ExecutorName name, j => some (j.ExecutorName name)
  | .ExecutorData data, j => some (j.ExecutorData data)
  | .CPU cpus, j => j.CPU cpus
  | .RAM ram, j => j.RAM ram
  | .Disk disk, j => j.Disk disk
  | .Tier tier, j => j.Tier tier
  | .MaxFailure maxFail, j => some (j.MaxFailure maxFail)
  | .InstanceCount instCount, j => some (j.InstanceCount instCount)
  | .CronSchedule cron, j => some (j.CronSchedule cron)
  | .CronCollisionPolicy policy, j => some (j.CronCollisionPolicy policy)
  | .IsService isService, j => some (j.IsService isService)
  | .AddURIs extract cache values, j => some (j.AddURIs extract cache values)
  | .AddLabel key value, j => some (j.AddLabel key value)
  | .AddNamedPorts names, j => some (j.AddNamedPorts names)
  | .AddPorts num, j => some (j.AddPorts num)
  | .AddValueConstraint name negated values, j => some (j.AddValueConstraint name negated values)
  | .AddLimitConstraint name limit, j => some (j.AddLimitConstraint name limit)
  | .AddDedicatedConstraint role name, j => some (j.AddDedicatedConstraint role name)
  | .Container container, j => some (j.Container container)

/-- A chain of calls, run from left to right; a panic ends the run. -/
def runAll : List Call → AuroraJob → Option AuroraJob
  | [], j => some j
  | c :: cs, j =>
    match c.run j with
    | none => none
    | some j => runAll cs j

/-- States that a chain of public mutator calls produces from `NewJob()`. -/
def Reachable (j : AuroraJob) : Prop := ∃ calls : List Call, runAll calls NewJob = some j

/-- Argument of the most recent `Environment` call of a chain; the empty string when the
chain has none. -/
def lastEnvironment (calls : List Call) : String :=
  calls.foldl (fun acc c => match c with | .Environment env => env | _ => acc) ""

/-- Argument of the most recent `Role` call of a chain; the empty string when the chain has
none. -/
def lastRole (calls : List Call) : String :=
  calls.foldl (fun acc c => match c with | .Role role => role | _ => acc) ""

/-- Argument of the most recent `Name` call of a chain; the empty string when the chain has
none. -/
def lastName (calls : List Call) : String :=
  calls.foldl (fun acc c => match c with | .Name name => name | _ => acc) ""

/-- The resource entries that the `AddPorts` calls of a chain append, in the order in which
they are appended: for each such call, the part of the resource list after the call that
lies beyond the list before the call. -/
def anonymousPorts : List Call → AuroraJob → List aurora.Resource
  | [], _ => []
  | c :: cs, j =>
    match c.run j with
    | none => []
    | some j' =>
      match c with
      | .AddPorts _ => j'.Resources.drop j.Resources.length ++ anonymousPorts cs j'
      | _ => anonymousPorts cs j'

/-- Number of ports a chain asks for: the counts of its `AddPorts` calls and the numbers of
names of its `AddNamedPorts` calls, added up as mathematical integers. -/
def portsRequested : List Call → Int
  | [] => 0
  | .AddPorts num :: cs => num + portsRequested cs
  | .AddNamedPorts names :: cs => names.length + portsRequested cs
  | _ :: cs => portsRequested cs

/-- Number that a list of decimal digits denotes; used to show that decimal rendering is
injective. -/
def decimalValue (cs : List Char) : Nat :=
  cs.foldl (fun acc c => 10 * acc + (c.toNat - 48)) 0

/-- The cpu quantity an entry of the resource list carries: what its `NumCpus` pointer
refers to. -/
def AuroraJob.numCpus (j : AuroraJob) (r : aurora.Resource) : Option Float64 :=
  load j.heap.float64s r.NumCpus

/-- The ram quantity an entry of the resource list carries: what its `RamMb` pointer refers
to. -/
def AuroraJob.ramMb (j : AuroraJob) (r : aurora.Resource) : Option Int :=
  load j.heap.int64s r.RamMb

/-- The disk quantity an entry of the resource list carries: what its `DiskMb` pointer
refers to. -/
def AuroraJob.diskMb (j : AuroraJob) (r : aurora.Resource) : Option Int :=
  load j.heap.int64s r.DiskMb

/-- A fetch directive as a reader sees it: the value, and the flags its `Extract` and
`Cache` pointers refer to. -/
def AuroraJob.fetchDirective (j : AuroraJob) (u : aurora.MesosFetcherURI) :
    String × Option Bool × Option Bool :=
  (u.Value, load j.heap.bools u.Extract, load j.heap.bools u.Cache)

/-- Descriptor built by the argument of the most recent `Container` call of a chain; the
default Mesos descriptor when the chain has none. -/
def lastContainer (calls : List Call) : aurora.Container :=
  calls.foldl (fun acc c => match c with | .Container container => container.Build | _ => acc)
    NewMesosContainer.Build

/-- Shape that `NewJob` establishes and no mutator disturbs: the two job-key pointers refer
to the one key cell, the `Tier` pointer is `nil`, the resource map is the one `NewJob`
built, and the cpu, ram and disk cells are the only numeric cells. -/
structure AuroraJob.Shaped (j : AuroraJob) : Prop where
  key : j.jobConfig.Key = some 0
  job : j.jobConfig.TaskConfig.Job = some 0
  keys : j.heap.jobKeys.length = 1
  tier : j.jobConfig.TaskConfig.Tier = none
  resources : j.resources = NewJob.resources
  float64s : j.heap.float64s.length = 1
  int64s : j.heap.int64s.length = 2

/-! ## Machine arithmetic and heap cells -/

theorem wrapInt_of_inRange (x : Int) (hlo : minInt ≤ x) (hhi : x ≤ maxInt) : wrapInt x = x := by
  unfold wrapInt
  unfold minInt at hlo
  unfold maxInt at hhi
  omega

theorem wrapInt_ge (x : Int) : minInt ≤ wrapInt x := by
  unfold wrapInt minInt
  omega

theorem wrapInt_le (x : Int) : wrapInt x ≤ maxInt := by
  unfold wrapInt maxInt
  omega

theorem load_append_left {α : Type} (cells extra : List α) (p : Option Addr) (v : α)
    (h : load cells p = some v) : load (cells ++ extra) p = some v := by
  cases p with
  | none => simp [load] at h
  | some a =>
    simp only [load, Option.some_bind] at h ⊢
    have hlt : a < cells.length := by
      rcases Nat.lt_or_ge a cells.length with hlt | hge
      · exact hlt
      · simp [List.getElem?_eq_none hge] at h
    rw [List.getElem?_append_left hlt]
    exact h

/-! ## Decimal rendering is injective -/

theorem digitChar_value (m : Nat) (h : m < 10) : (Nat.digitChar m).toNat - 48 = m := by
  interval_cases m <;> rfl

theorem digitChar_ne_minus (m : Nat) (h : m < 10) : Nat.digitChar m ≠ '-' := by
  interval_cases m <;> decide

theorem toDigitsCore_append (fuel n : Nat) (ds : List Char) :
    Nat.toDigitsCore 10 fuel n ds = Nat.toDigitsCore 10 fuel n [] ++ ds := by
  induction fuel generalizing n ds with
  | zero => simp [Nat.toDigitsCore]
  | succ f ih =>
    simp only [Nat.toDigitsCore]
    split
    · simp
    · rw [ih (n / 10) (Nat.digitChar (n % 10) :: ds), ih (n / 10) [Nat.digitChar (n % 10)]]
      simp

theorem decimalValue_toDigitsCore (fuel n : Nat) (h : n < fuel) :
    decimalValue (Nat.toDigitsCore 10 fuel n []) = n := by
  induction fuel generalizing n with
  | zero => omega
  | succ f ih =>
    simp only [Nat.toDigitsCore]
    split
    · rename_i h0
      simp only [decimalValue, List.foldl_cons, List.foldl_nil]
      rw [digitChar_value _ (Nat.mod_lt _ (by decide))]
      omega
    · rename_i h0
      rw [toDigitsCore_append]
      have hlt : n / 10 < f := by omega
      have := ih (n / 10) hlt
      simp only [decimalValue, List.foldl_append, List.foldl_cons, List.foldl_nil] at this ⊢
      rw [this, digitChar_value _ (Nat.mod_lt _ (by decide))]
      omega

theorem toDigitsCore_digits (fuel n : Nat) (c : Char)
    (h : c ∈ Nat.toDigitsCore 10 fuel n []) : ∃ m, m < 10 ∧ c = Nat.digitChar m := by
  induction fuel generalizing n with
  | zero => simp [Nat.toDigitsCore] at h
  | succ f ih =>
    simp only [Nat.toDigitsCore] at h
    split at h
    · simp only [List.mem_singleton] at h
      exact ⟨n % 10, Nat.mod_lt _ (by decide), h⟩
    · rw [toDigitsCore_append] at h
      rcases List.mem_append.mp h with h | h
      · exact ih _ h
      · simp only [List.mem_singleton] at h
        exact ⟨n % 10, Nat.mod_lt _ (by decide), h⟩

theorem Nat_repr_injective (n m : Nat) (h : Nat.repr n = Nat.repr m) : n = m := by
  have h1 : Nat.toDigits 10 n = Nat.toDigits 10 m := by
    have := congrArg String.data h
    simpa [Nat.repr, List.asString] using this
  have h2 := congrArg decimalValue h1
  simp only [Nat.toDigits] at h2
  rwa [decimalValue_toDigitsCore _ _ (Nat.lt_succ_self n),
    decimalValue_toDigitsCore _ _ (Nat.lt_succ_self m)] at h2

theorem Nat_repr_ne_minus (n : Nat) (s : String) : Nat.repr n ≠ "-" ++ s := by
  intro h
  have h1 : Nat.toDigits 10 n = '-' :: s.data := by
    have := congrArg String.data h
    simpa [Nat.repr, List.asString] using this
  have hmem : '-' ∈ Nat.toDigitsCore 10 (n + 1) n [] := by
    have : Nat.toDigitsCore 10 (n + 1) n [] = '-' :: s.data := h1
    rw [this]
    exact List.mem_cons_self _ _
  obtain ⟨m, hm, hc⟩ := toDigitsCore_digits _ _ _ hmem
  exact digitChar_ne_minus m hm hc.symm

theorem String_append_left_cancel (a b c : String) (h : a ++ b = a ++ c) : b = c := by
  have := congrArg String.data h
  simp only [String.data_append] at this
  exact String.ext (List.append_cancel_left this)

/-- Decimal rendering is injective: two integers with the same rendering are equal. -/
theorem Itoa_injective (i j : Int) (h : strconv.Itoa i = strconv.Itoa j) : i = j := by
  cases i with
  | ofNat n =>
    cases j with
    | ofNat m =>
      simp only [strconv.Itoa] at h
      rw [Nat_repr_injective n m h]
    | negSucc m =>
      simp only [strconv.Itoa] at h
      exact absurd h (Nat_repr_ne_minus _ _)
  | negSucc n =>
    cases j with
    | ofNat m =>
      simp only [strconv.Itoa] at h
      exact absurd h.symm (Nat_repr_ne_minus _ _)
    | negSucc m =>
      simp only [strconv.Itoa] at h
      have := Nat_repr_injective _ _ (String_append_left_cancel _ _ _ h)
      have : n = m := by omega
      rw [this]

/-! ## The loops, in closed form -/

theorem AuroraJob.AddPorts_loop_eq (n : Nat) (i : Int) (j : AuroraJob) :
    AuroraJob.AddPorts.loop n i j =
      { j with
        heap.strings := j.heap.strings ++
          (List.range n).map (fun (k : Nat) => portNameStem ++ strconv.Itoa (i + (k : Int)))
        jobConfig.TaskConfig.Resources := j.jobConfig.TaskConfig.Resources ++
          (List.range n).map
            (fun k => ({ NamedPort := some (j.heap.strings.length + k) } : aurora.Resource)) } := by
  induction n generalizing i j with
  | zero => simp [AuroraJob.AddPorts.loop]
  | succ n ih =>
    simp only [AuroraJob.AddPorts.loop, alloc, ih]
    simp [List.range_succ_eq_map, List.map_map, Function.comp_def, Nat.add_assoc,
      Nat.add_comm 1, Int.add_assoc, Int.add_comm 1]

/-- Without overflow `AddPorts num` is one record update: the counter advanced by `num`,
`num` fresh name cells, `num` entries pointing at them. -/
theorem AuroraJob.AddPorts_eq (j : AuroraJob) (num : Int)
    (hnum : 0 ≤ num) (hlo : minInt ≤ j.portCount) (hhi : j.portCount + num ≤ maxInt) :
    j.AddPorts num =
      { j with
        portCount := j.portCount + num
        heap.strings := j.heap.strings ++
          (List.range num.toNat).map
            (fun (k : Nat) => portNameStem ++ strconv.Itoa (j.portCount + (k : Int)))
        jobConfig.TaskConfig.Resources := j.jobConfig.TaskConfig.Resources ++
          (List.range num.toNat).map
            (fun k => ({ NamedPort := some (j.heap.strings.length + k) } : aurora.Resource)) } := by
  have hw : wrapInt (j.portCount + num) = j.portCount + num :=
    wrapInt_of_inRange _ (by omega) hhi
  simp only [AuroraJob.AddPorts, hw, AuroraJob.AddPorts_loop_eq]
  simp

theorem AuroraJob.AddNamedPorts_loop_eq (name : Addr) (names : List String) (j : AuroraJob) :
    AuroraJob.AddNamedPorts.loop name names j =
      { j with
        heap.strings := names.foldl (fun cells n => cells.set name n) j.heap.strings
        jobConfig.TaskConfig.Resources := j.jobConfig.TaskConfig.Resources ++
          List.replicate names.length ({ NamedPort := some name } : aurora.Resource) } := by
  induction names generalizing j with
  | nil => simp [AuroraJob.AddNamedPorts.loop]
  | cons n rest ih =>
    simp only [AuroraJob.AddNamedPorts.loop, ih]
    simp [List.replicate_succ]

theorem foldl_set_last {α : Type} (cells : List α) (v : α) (vs : List α) :
    vs.foldl (fun cs n => cs.set cells.length n) (cells ++ [v]) = cells ++ [vs.getLastD v] := by
  induction vs generalizing v with
  | nil => simp
  | cons n rest ih =>
    simp only [List.foldl_cons]
    have : (cells ++ [v]).set cells.length n = cells ++ [n] := by
      simp [List.set_append]
    rw [this, ih]
    cases rest <;> simp [List.getLastD]

/-- `AddNamedPorts names` as one record update: the counter advanced by the number of
names, one fresh cell (the loop variable) holding the last name, and one entry per name,
every one pointing at that cell. -/
theorem AuroraJob.AddNamedPorts_eq (names : List String) (j : AuroraJob) :
    j.AddNamedPorts names =
      { j with
        portCount := wrapInt (j.portCount + names.length)
        heap.strings := j.heap.strings ++ [names.getLastD ""]
        jobConfig.TaskConfig.Resources := j.jobConfig.TaskConfig.Resources ++
          List.replicate names.length
            ({ NamedPort := some j.heap.strings.length } : aurora.Resource) } := by
  simp [AuroraJob.AddNamedPorts, AuroraJob.AddNamedPorts_loop_eq, alloc, foldl_set_last]

theorem AuroraJob.AddURIs_loop_eq (extract cache : Addr) (values : List String) (j : AuroraJob) :
    AuroraJob.AddURIs.loop extract cache values j =
      { j with
        jobConfig.TaskConfig.MesosFetcherUris := j.jobConfig.TaskConfig.MesosFetcherUris ++
          values.map (fun value =>
            ({ Value := value, Extract := some extract, Cache := some cache } :
              aurora.MesosFetcherURI)) } := by
  induction values generalizing j with
  | nil => simp [AuroraJob.AddURIs.loop]
  | cons v rest ih =>
    simp only [AuroraJob.AddURIs.loop, ih]
    simp

theorem AuroraJob.AddNamedPorts_portCount (names : List String) (j : AuroraJob) :
    (j.AddNamedPorts names).portCount = wrapInt (j.portCount + names.length) := by
  simp [AuroraJob.AddNamedPorts, AuroraJob.AddNamedPorts_loop_eq, alloc]

theorem AuroraJob.AddPorts_names (j : AuroraJob) (num : Int)
    (hnum : 0 ≤ num) (hlo : minInt ≤ j.portCount) (hhi : j.portCount + num ≤ maxInt) :
    ((j.AddPorts num).Resources.drop j.Resources.length).map (j.AddPorts num).portName =
      (List.range num.toNat).map
        (fun (k : Nat) => some (portNameStem ++ strconv.Itoa (j.portCount + (k : Int)))) := by
  rw [AuroraJob.AddPorts_eq j num hnum hlo hhi]
  simp only [AuroraJob.Resources, List.drop_left, List.map_map, AuroraJob.portName]
  apply List.map_congr_left
  intro k hk
  have hk2 : k < num.toNat := List.mem_range.mp hk
  simp [AuroraJob.portName, load, List.getElem?_append_right, hk2, List.getElem_append_right]

theorem AuroraJob.ExecutorName_eq (name : String) (j : AuroraJob) :
    j.ExecutorName name =
      { j with
        jobConfig.TaskConfig.ExecutorConfig :=
          some ⟨name,
            (j.jobConfig.TaskConfig.ExecutorConfig.getD aurora.NewExecutorConfig).Data⟩ } := by
  unfold AuroraJob.ExecutorName
  cases h : j.jobConfig.TaskConfig.ExecutorConfig <;> simp [h]

theorem AuroraJob.ExecutorData_eq (data : String) (j : AuroraJob) :
    j.ExecutorData data =
      { j with
        jobConfig.TaskConfig.ExecutorConfig :=
          some ⟨(j.jobConfig.TaskConfig.ExecutorConfig.getD aurora.NewExecutorConfig).Name,
            data⟩ } := by
  unfold AuroraJob.ExecutorData
  cases h : j.jobConfig.TaskConfig.ExecutorConfig <;> simp [h]

/-! ## When the fallible setters succeed -/

theorem store_eq_some {α : Type} (cells : List α) (p : Option Addr) (v : α) (cells' : List α)
    (h : store cells p v = some cells') :
    ∃ a, p = some a ∧ a < cells.length ∧ cells' = cells.set a v := by
  cases p with
  | none => simp [store] at h
  | some a =>
    simp only [store] at h
    split at h
    · exact ⟨a, rfl, ‹_›, (Option.some.inj h).symm⟩
    · exact Option.noConfusion h

theorem AuroraJob.updateKey_eq_some (f : aurora.JobKey → aurora.JobKey) (j j' : AuroraJob)
    (h : j.updateKey f = some j') :
    ∃ a key, j.jobConfig.Key = some a ∧ j.heap.jobKeys[a]? = some key ∧
      j' = { j with heap.jobKeys := j.heap.jobKeys.set a (f key) } := by
  unfold AuroraJob.updateKey at h
  split at h
  · exact Option.noConfusion h
  · rename_i key hkey
    split at h
    · exact Option.noConfusion h
    · rename_i keys hkeys
      obtain ⟨a, ha, _, rfl⟩ := store_eq_some _ _ _ _ hkeys
      refine ⟨a, key, ha, ?_, (Option.some.inj h).symm⟩
      simpa [load, ha] using hkey

theorem AuroraJob.Role_eq_some (role : String) (j j' : AuroraJob) (h : j.Role role = some j') :
    ∃ a key, j.jobConfig.Key = some a ∧ j.heap.jobKeys[a]? = some key ∧
      j' = { j with
        heap.jobKeys := j.heap.jobKeys.set a { key with Role := role }
        jobConfig.Owner := some { User := role }
        jobConfig.TaskConfig.Owner := some { User := role } } := by
  unfold AuroraJob.Role at h
  split at h
  · exact Option.noConfusion h
  · rename_i j1 hj1
    obtain ⟨a, key, ha, hkey, rfl⟩ := AuroraJob.updateKey_eq_some _ _ _ hj1
    exact ⟨a, key, ha, hkey, (Option.some.inj h).symm⟩

theorem AuroraJob.CPU_eq_some (cpus : Float64) (j j' : AuroraJob) (h : j.CPU cpus = some j') :
    ∃ r a, j.resources.lookup "cpu" = some r ∧ r.NumCpus = some a ∧ a < j.heap.float64s.length ∧
      j' = { j with heap.float64s := j.heap.float64s.set a cpus } := by
  unfold AuroraJob.CPU at h
  split at h
  · exact Option.noConfusion h
  · rename_i r hr
    split at h
    · exact Option.noConfusion h
    · rename_i cells hcells
      obtain ⟨a, ha, hlt, rfl⟩ := store_eq_some _ _ _ _ hcells
      exact ⟨r, a, hr, ha, hlt, (Option.some.inj h).symm⟩

theorem AuroraJob.RAM_eq_some (ram : Int) (j j' : AuroraJob) (h : j.RAM ram = some j') :
    ∃ r a, j.resources.lookup "ram" = some r ∧ r.RamMb = some a ∧ a < j.heap.int64s.length ∧
      j' = { j with heap.int64s := j.heap.int64s.set a ram } := by
  unfold AuroraJob.RAM at h
  split at h
  · exact Option.noConfusion h
  · rename_i r hr
    split at h
    · exact Option.noConfusion h
    · rename_i cells hcells
      obtain ⟨a, ha, hlt, rfl⟩ := store_eq_some _ _ _ _ hcells
      exact ⟨r, a, hr, ha, hlt, (Option.some.inj h).symm⟩

theorem AuroraJob.Disk_eq_some (disk : Int) (j j' : AuroraJob) (h : j.Disk disk = some j') :
    ∃ r a, j.resources.lookup "disk" = some r ∧ r.DiskMb = some a ∧ a < j.heap.int64s.length ∧
      j' = { j with heap.int64s := j.heap.int64s.set a disk } := by
  unfold AuroraJob.Disk at h
  split at h
  · exact Option.noConfusion h
  · rename_i r hr
    split at h
    · exact Option.noConfusion h
    · rename_i cells hcells
      obtain ⟨a, ha, hlt, rfl⟩ := store_eq_some _ _ _ _ hcells
      exact ⟨r, a, hr, ha, hlt, (Option.some.inj h).symm⟩

theorem AuroraJob.Tier_eq_some (tier : String) (j j' : AuroraJob) (h : j.Tier tier = some j') :
    ∃ a, j.jobConfig.TaskConfig.Tier = some a ∧ a < j.heap.strings.length ∧
      j' = { j with heap.strings := j.heap.strings.set a tier } := by
  unfold AuroraJob.Tier at h
  split at h
  · exact Option.noConfusion h
  · rename_i cells hcells
    obtain ⟨a, ha, hlt, rfl⟩ := store_eq_some _ _ _ _ hcells
    exact ⟨a, ha, hlt, (Option.some.inj h).symm⟩

/-! ## The shape of reachable builders -/

theorem AuroraJob.Shaped_NewJob : NewJob.Shaped :=
  ⟨rfl, rfl, rfl, rfl, rfl, rfl, rfl⟩

theorem Call.run_shaped (c : Call) (j j' : AuroraJob) (hs : j.Shaped) (h : c.run j = some j') :
    j'.Shaped := by
  obtain ⟨h1, h2, h3, h4, h5, h6, h7⟩ := hs
  cases c with
  | Environment env =>
    obtain ⟨a, key, _, _, rfl⟩ := AuroraJob.updateKey_eq_some _ _ _ h
    exact ⟨h1, h2, by simpa using h3, h4, h5, h6, h7⟩
  | Role role =>
    obtain ⟨a, key, _, _, rfl⟩ := AuroraJob.Role_eq_some _ _ _ h
    exact ⟨h1, h2, by simpa using h3, h4, h5, h6, h7⟩
  | Name name =>
    obtain ⟨a, key, _, _, rfl⟩ := AuroraJob.updateKey_eq_some _ _ _ h
    exact ⟨h1, h2, by simpa using h3, h4, h5, h6, h7⟩
  | CPU cpus =>
    obtain ⟨r, a, _, _, _, rfl⟩ := AuroraJob.CPU_eq_some _ _ _ h
    exact ⟨h1, h2, h3, h4, h5, by simpa using h6, h7⟩
  | RAM ram =>
    obtain ⟨r, a, _, _, _, rfl⟩ := AuroraJob.RAM_eq_some _ _ _ h
    exact ⟨h1, h2, h3, h4, h5, h6, by simpa using h7⟩
  | Disk disk =>
    obtain ⟨r, a, _, _, _, rfl⟩ := AuroraJob.Disk_eq_some _ _ _ h
    exact ⟨h1, h2, h3, h4, h5, h6, by simpa using h7⟩
  | Tier tier =>
    obtain ⟨a, ha, _, rfl⟩ := AuroraJob.Tier_eq_some _ _ _ h
    rw [h4] at ha
    exact Option.noConfusion ha
  | _ =>
    simp only [Call.run, Option.some.injEq] at h
    subst h
    constructor <;>
      simp [AuroraJob.ExecutorName_eq, AuroraJob.ExecutorData_eq, AuroraJob.MaxFailure,
        AuroraJob.InstanceCount, AuroraJob.CronSchedule, AuroraJob.CronCollisionPolicy,
        AuroraJob.IsService, AuroraJob.AddURIs, AuroraJob.AddURIs_loop_eq, AuroraJob.AddLabel,
        AuroraJob.AddNamedPorts_eq, AuroraJob.AddPorts, AuroraJob.AddPorts_loop_eq,
        AuroraJob.AddValueConstraint, AuroraJob.AddLimitConstraint,
        AuroraJob.AddDedicatedConstraint, AuroraJob.Container, alloc, *]

theorem runAll_shaped (calls : List Call) (j j' : AuroraJob) (hs : j.Shaped)
    (h : runAll calls j = some j') : j'.Shaped := by
  induction calls generalizing j with
  | nil =>
    simp only [runAll, Option.some.injEq] at h
    exact h ▸ hs
  | cons c cs ih =>
    simp only [runAll] at h
    split at h
    · exact Option.noConfusion h
    · rename_i j1 hj1
      exact ih j1 (Call.run_shaped c j j1 hs hj1) h

theorem Reachable.shaped (j : AuroraJob) (h : Reachable j) : j.Shaped := by
  obtain ⟨calls, hc⟩ := h
  exact runAll_shaped calls NewJob j AuroraJob.Shaped_NewJob hc

/-- On a shaped builder every call but `Tier` completes. -/
theorem Call.run_isSome (c : Call) (j : AuroraJob) (hs : j.Shaped) (hc : ∀ tier, c ≠ .Tier tier) :
    ∃ j', c.run j = some j' := by
  obtain ⟨h1, h2, h3, h4, h5, h6, h7⟩ := hs
  have hk : ∃ key, j.heap.jobKeys = [key] := by
    match hkeys : j.heap.jobKeys, h3 with
    | [key], _ => exact ⟨key, rfl⟩
  obtain ⟨key, hkey⟩ := hk
  cases c with
  | Tier tier => exact absurd rfl (hc tier)
  | Environment env => simp [Call.run, AuroraJob.Environment, AuroraJob.updateKey, load, store, h1, hkey]
  | Role role => simp [Call.run, AuroraJob.Role, AuroraJob.updateKey, load, store, h1, hkey]
  | Name name => simp [Call.run, AuroraJob.Name, AuroraJob.updateKey, load, store, h1, hkey]
  | CPU cpus => simp [Call.run, AuroraJob.CPU, store, h5, h6, NewJob, List.lookup]
  | RAM ram => simp [Call.run, AuroraJob.RAM, store, h5, h7, NewJob, List.lookup]
  | Disk disk => simp [Call.run, AuroraJob.Disk, store, h5, h7, NewJob, List.lookup]
  | _ => exact ⟨_, rfl⟩

/-! ## What one call does to the counter, the key and the owners -/

/-- Every call but the two port calls leaves the port counter alone. -/
theorem Call.run_portCount (c : Call) (j j' : AuroraJob) (h : c.run j = some j')
    (hp : ∀ num, c ≠ .AddPorts num) (hn : ∀ names, c ≠ .AddNamedPorts names) :
    j'.portCount = j.portCount := by
  cases c with
  | Environment env =>
    obtain ⟨a, key, _, _, rfl⟩ := AuroraJob.updateKey_eq_some _ _ _ h
    rfl
  | Role role =>
    obtain ⟨a, key, _, _, rfl⟩ := AuroraJob.Role_eq_some _ _ _ h
    rfl
  | Name name =>
    obtain ⟨a, key, _, _, rfl⟩ := AuroraJob.updateKey_eq_some _ _ _ h
    rfl
  | CPU cpus =>
    obtain ⟨r, a, _, _, _, rfl⟩ := AuroraJob.CPU_eq_some _ _ _ h
    rfl
  | RAM ram =>
    obtain ⟨r, a, _, _, _, rfl⟩ := AuroraJob.RAM_eq_some _ _ _ h
    rfl
  | Disk disk =>
    obtain ⟨r, a, _, _, _, rfl⟩ := AuroraJob.Disk_eq_some _ _ _ h
    rfl
  | Tier tier =>
    obtain ⟨a, _, _, rfl⟩ := AuroraJob.Tier_eq_some _ _ _ h
    rfl
  | AddPorts num => exact absurd rfl (hp num)
  | AddNamedPorts names => exact absurd rfl (hn names)
  | _ =>
    simp only [Call.run, Option.some.injEq] at h
    subst h
    simp [AuroraJob.ExecutorName_eq, AuroraJob.ExecutorData_eq, AuroraJob.MaxFailure,
      AuroraJob.InstanceCount, AuroraJob.CronSchedule, AuroraJob.CronCollisionPolicy,
      AuroraJob.IsService, AuroraJob.AddURIs, AuroraJob.AddURIs_loop_eq, AuroraJob.AddLabel,
      AuroraJob.AddValueConstraint, AuroraJob.AddLimitConstraint,
      AuroraJob.AddDedicatedConstraint, AuroraJob.Container, alloc]

theorem AuroraJob.AddPorts_portCount (num : Int) (j : AuroraJob) :
    (j.AddPorts num).portCount = wrapInt (j.portCount + num) := by
  simp [AuroraJob.AddPorts, AuroraJob.AddPorts_loop_eq]

theorem load_set_self {α : Type} (cells : List α) (a : Addr) (v w : α)
    (h : cells[a]? = some w) : load (cells.set a v) (some a) = some v := by
  have hlt : a < cells.length := by
    rcases Nat.lt_or_ge a cells.length with hlt | hge
    · exact hlt
    · simp [List.getElem?_eq_none hge] at h
  simp [load, hlt]

/-- What one call does to the job key and to the two owner fields. -/
theorem Call.run_key_owner (c : Call) (j j' : AuroraJob) (k : aurora.JobKey)
    (h : c.run j = some j') (hk : j.key = some k) :
    (∀ role, c = .Role role →
      j'.key = some { k with Role := role } ∧ j'.jobConfig.Owner = some { User := role } ∧
        j'.jobConfig.TaskConfig.Owner = some { User := role }) ∧
    (∀ env, c = .Environment env → j'.key = some { k with Environment := env }) ∧
    (∀ name, c = .Name name → j'.key = some { k with Name := name }) ∧
    ((∀ role, c ≠ .Role role) →
      j'.jobConfig.Owner = j.jobConfig.Owner ∧
        j'.jobConfig.TaskConfig.Owner = j.jobConfig.TaskConfig.Owner) ∧
    ((∀ role, c ≠ .Role role) → (∀ env, c ≠ .Environment env) → (∀ name, c ≠ .Name name) →
      j'.key = some k) := by
  cases c with
  | Environment env =>
    obtain ⟨a, key, ha, hkey, rfl⟩ := AuroraJob.updateKey_eq_some _ _ _ h
    have : key = k := by
      simpa [AuroraJob.key, AuroraJob.JobKey, load, ha, hkey] using hk
    subst this
    refine ⟨(fun _ hc => by cases hc), ?_, (fun _ hc => by cases hc), fun _ => ⟨rfl, rfl⟩,
      fun _ hne _ => absurd rfl (hne env)⟩
    intro e hc
    cases hc
    simpa [AuroraJob.key, AuroraJob.JobKey, ha] using load_set_self _ a _ _ hkey
  | Role role =>
    obtain ⟨a, key, ha, hkey, rfl⟩ := AuroraJob.Role_eq_some _ _ _ h
    have : key = k := by
      simpa [AuroraJob.key, AuroraJob.JobKey, load, ha, hkey] using hk
    subst this
    refine ⟨?_, (fun _ hc => by cases hc), (fun _ hc => by cases hc),
      fun hne => absurd rfl (hne role), fun hne _ _ => absurd rfl (hne role)⟩
    intro r hc
    cases hc
    refine ⟨?_, rfl, rfl⟩
    simpa [AuroraJob.key, AuroraJob.JobKey, ha] using load_set_self _ a _ _ hkey
  | Name name =>
    obtain ⟨a, key, ha, hkey, rfl⟩ := AuroraJob.updateKey_eq_some _ _ _ h
    have : key = k := by
      simpa [AuroraJob.key, AuroraJob.JobKey, load, ha, hkey] using hk
    subst this
    refine ⟨(fun _ hc => by cases hc), (fun _ hc => by cases hc), ?_, fun _ => ⟨rfl, rfl⟩,
      fun _ _ hne => absurd rfl (hne name)⟩
    intro e hc
    cases hc
    simpa [AuroraJob.key, AuroraJob.JobKey, ha] using load_set_self _ a _ _ hkey
  | CPU cpus =>
    obtain ⟨r, a, _, _, _, rfl⟩ := AuroraJob.CPU_eq_some _ _ _ h
    exact ⟨(fun _ hc => by cases hc), (fun _ hc => by cases hc), (fun _ hc => by cases hc),
      fun _ => ⟨rfl, rfl⟩, fun _ _ _ => hk⟩
  | RAM ram =>
    obtain ⟨r, a, _, _, _, rfl⟩ := AuroraJob.RAM_eq_some _ _ _ h
    exact ⟨(fun _ hc => by cases hc), (fun _ hc => by cases hc), (fun _ hc => by cases hc),
      fun _ => ⟨rfl, rfl⟩, fun _ _ _ => hk⟩
  | Disk disk =>
    obtain ⟨r, a, _, _, _, rfl⟩ := AuroraJob.Disk_eq_some _ _ _ h
    exact ⟨(fun _ hc => by cases hc), (fun _ hc => by cases hc), (fun _ hc => by cases hc),
      fun _ => ⟨rfl, rfl⟩, fun _ _ _ => hk⟩
  | Tier tier =>
    obtain ⟨a, _, _, rfl⟩ := AuroraJob.Tier_eq_some _ _ _ h
    exact ⟨(fun _ hc => by cases hc), (fun _ hc => by cases hc), (fun _ hc => by cases hc),
      fun _ => ⟨rfl, rfl⟩, fun _ _ _ => hk⟩
  | _ =>
    simp only [Call.run, Option.some.injEq] at h
    subst h
    refine ⟨(fun _ hc => by cases hc), (fun _ hc => by cases hc), (fun _ hc => by cases hc),
      fun _ => ?_, fun _ _ _ => ?_⟩
    · simp [AuroraJob.ExecutorName_eq, AuroraJob.ExecutorData_eq, AuroraJob.MaxFailure,
        AuroraJob.InstanceCount, AuroraJob.CronSchedule, AuroraJob.CronCollisionPolicy,
        AuroraJob.IsService, AuroraJob.AddURIs, AuroraJob.AddURIs_loop_eq, AuroraJob.AddLabel,
        AuroraJob.AddNamedPorts_eq, AuroraJob.AddPorts, AuroraJob.AddPorts_loop_eq,
        AuroraJob.AddValueConstraint, AuroraJob.AddLimitConstraint,
        AuroraJob.AddDedicatedConstraint, AuroraJob.Container, alloc]
    · rw [← hk]
      simp [AuroraJob.key, AuroraJob.JobKey, AuroraJob.ExecutorName_eq, AuroraJob.ExecutorData_eq,
        AuroraJob.MaxFailure,
        AuroraJob.InstanceCount, AuroraJob.CronSchedule, AuroraJob.CronCollisionPolicy,
        AuroraJob.IsService, AuroraJob.AddURIs, AuroraJob.AddURIs_loop_eq, AuroraJob.AddLabel,
        AuroraJob.AddNamedPorts_eq, AuroraJob.AddPorts, AuroraJob.AddPorts_loop_eq,
        AuroraJob.AddValueConstraint, AuroraJob.AddLimitConstraint,
        AuroraJob.AddDedicatedConstraint, AuroraJob.Container, alloc]

/-! ## Chains of calls: key, owners, constraints -/

theorem NewJob_key : NewJob.key = some {} := rfl

/-- The job key after a chain, from the key before it: each field holds the argument of the
last call of its setter, or what it held before the chain. -/
theorem runAll_key (calls : List Call) (j0 j : AuroraJob) (k0 : aurora.JobKey)
    (hk : j0.key = some k0) (h : runAll calls j0 = some j) :
    j.key = some
      { Role := calls.foldl (fun acc c => match c with | .Role role => role | _ => acc) k0.Role
        Environment :=
          calls.foldl (fun acc c => match c with | .Environment env => env | _ => acc)
            k0.Environment
        Name := calls.foldl (fun acc c => match c with | .Name name => name | _ => acc) k0.Name } := by
  induction calls generalizing j0 k0 with
  | nil =>
    simp only [runAll, Option.some.injEq] at h
    subst h
    simpa using hk
  | cons c cs ih =>
    simp only [runAll] at h
    split at h
    · exact Option.noConfusion h
    · rename_i j1 hj1
      obtain ⟨hR, hE, hN, _, hO⟩ := Call.run_key_owner c j0 j1 k0 hj1 hk
      cases c with
      | Role role => simpa using ih j1 _ (hR role rfl).1 h
      | Environment env => simpa using ih j1 _ (hE env rfl) h
      | Name name => simpa using ih j1 _ (hN name rfl) h
      | _ =>
        simpa using ih j1 k0
          (hO (fun _ hc => by cases hc) (fun _ hc => by cases hc) (fun _ hc => by cases hc)) h

/-- A chain without a `Tier` call runs to completion on a shaped builder. -/
theorem runAll_isSome (calls : List Call) (j : AuroraJob) (hs : j.Shaped)
    (hc : ∀ tier, Call.Tier tier ∉ calls) : ∃ j', runAll calls j = some j' := by
  induction calls generalizing j with
  | nil => exact ⟨j, rfl⟩
  | cons c cs ih =>
    obtain ⟨j1, hj1⟩ := Call.run_isSome c j hs (fun tier h => hc tier (h ▸ List.mem_cons_self _ _))
    obtain ⟨j2, hj2⟩ := ih j1 (Call.run_shaped c j j1 hs hj1)
      (fun tier h => hc tier (List.mem_cons_of_mem _ h))
    exact ⟨j2, by simp [runAll, hj1, hj2]⟩

/-- The owner fields along a chain: they stay equal to each other, hold the key's role once
set, are set by a `Role` call and by nothing else. -/
theorem runAll_owner (calls : List Call) (j0 j : AuroraJob) (k0 : aurora.JobKey)
    (hk : j0.key = some k0) (h : runAll calls j0 = some j)
    (hagree : j0.jobConfig.Owner = j0.jobConfig.TaskConfig.Owner)
    (hrole : j0.jobConfig.Owner = none ∨ j0.jobConfig.Owner = some { User := k0.Role }) :
    j.jobConfig.Owner = j.jobConfig.TaskConfig.Owner ∧
    (∃ k, j.key = some k ∧
      (j.jobConfig.Owner = none ∨ j.jobConfig.Owner = some { User := k.Role })) ∧
    ((∀ role, Call.Role role ∉ calls) → j.jobConfig.Owner = j0.jobConfig.Owner) ∧
    ((j0.jobConfig.Owner ≠ none ∨ ∃ role, Call.Role role ∈ calls) → j.jobConfig.Owner ≠ none) := by
  induction calls generalizing j0 k0 with
  | nil =>
    simp only [runAll, Option.some.injEq] at h
    subst h
    refine ⟨hagree, ⟨k0, hk, hrole⟩, fun _ => rfl, ?_⟩
    rintro (h1 | ⟨_, h2⟩)
    · exact h1
    · simp at h2
  | cons c cs ih =>
    simp only [runAll] at h
    split at h
    · exact Option.noConfusion h
    · rename_i j1 hj1
      obtain ⟨hR, hE, hN, hOwn, hO⟩ := Call.run_key_owner c j0 j1 k0 hj1 hk
      by_cases hc : ∃ role, c = .Role role
      · obtain ⟨role, rfl⟩ := hc
        obtain ⟨h1, h2, h3⟩ := hR role rfl
        obtain ⟨i1, i2, i3, i4⟩ := ih j1 _ h1 h (by rw [h2, h3]) (Or.inr (by rw [h2]))
        refine ⟨i1, i2, ?_, fun _ => i4 (Or.inl (by rw [h2]; simp))⟩
        intro hno
        exact absurd (List.mem_cons_self _ _) (hno role)
      · have hne : ∀ role, c ≠ .Role role := fun role h => hc ⟨role, h⟩
        obtain ⟨o1, o2⟩ := hOwn hne
        have hkey : ∃ k1, j1.key = some k1 ∧ k1.Role = k0.Role := by
          by_cases h2 : ∃ env, c = .Environment env
          · obtain ⟨env, rfl⟩ := h2
            exact ⟨_, hE env rfl, rfl⟩
          · by_cases h3 : ∃ name, c = .Name name
            · obtain ⟨name, rfl⟩ := h3
              exact ⟨_, hN name rfl, rfl⟩
            · exact ⟨k0, hO hne (fun e hc => h2 ⟨e, hc⟩) (fun n hc => h3 ⟨n, hc⟩), rfl⟩
        obtain ⟨k1, hk1, hr1⟩ := hkey
        obtain ⟨i1, i2, i3, i4⟩ := ih j1 k1 hk1 h (by rw [o1, o2]; exact hagree)
          (by rw [o1, hr1]; exact hrole)
        refine ⟨i1, i2, ?_, ?_⟩
        · intro hno
          rw [i3 (fun role hm => hno role (List.mem_cons_of_mem _ hm)), o1]
        · rintro (h1 | ⟨role, h2⟩)
          · exact i4 (Or.inl (by rw [o1]; exact h1))
          · rcases List.mem_cons.mp h2 with h2 | h2
            · exact absurd h2.symm (hne role)
            · exact i4 (Or.inr ⟨role, h2⟩)

/-- What one call does to the constraint list: nothing, or one constraint appended with
exactly one variant populated. -/
theorem Call.run_constraints (c : Call) (j j' : AuroraJob) (h : c.run j = some j') :
    j'.Constraints = j.Constraints ∨
    ∃ name tc, j'.Constraints = j.Constraints ++ [{ Name := name, Constraint := some tc }] ∧
      ((tc.Value ≠ none ∧ tc.Limit = none) ∨ (tc.Value = none ∧ tc.Limit ≠ none)) := by
  cases c with
  | Environment env =>
    obtain ⟨a, key, _, _, rfl⟩ := AuroraJob.updateKey_eq_some _ _ _ h
    exact Or.inl rfl
  | Role role =>
    obtain ⟨a, key, _, _, rfl⟩ := AuroraJob.Role_eq_some _ _ _ h
    exact Or.inl rfl
  | Name name =>
    obtain ⟨a, key, _, _, rfl⟩ := AuroraJob.updateKey_eq_some _ _ _ h
    exact Or.inl rfl
  | CPU cpus =>
    obtain ⟨r, a, _, _, _, rfl⟩ := AuroraJob.CPU_eq_some _ _ _ h
    exact Or.inl rfl
  | RAM ram =>
    obtain ⟨r, a, _, _, _, rfl⟩ := AuroraJob.RAM_eq_some _ _ _ h
    exact Or.inl rfl
  | Disk disk =>
    obtain ⟨r, a, _, _, _, rfl⟩ := AuroraJob.Disk_eq_some _ _ _ h
    exact Or.inl rfl
  | Tier tier =>
    obtain ⟨a, _, _, rfl⟩ := AuroraJob.Tier_eq_some _ _ _ h
    exact Or.inl rfl
  | AddValueConstraint name negated values =>
    simp only [Call.run, Option.some.injEq] at h
    subst h
    exact Or.inr ⟨name, _, rfl, Or.inl ⟨by simp, rfl⟩⟩
  | AddLimitConstraint name limit =>
    simp only [Call.run, Option.some.injEq] at h
    subst h
    exact Or.inr ⟨name, _, rfl, Or.inr ⟨rfl, by simp⟩⟩
  | AddDedicatedConstraint role name =>
    simp only [Call.run, Option.some.injEq] at h
    subst h
    exact Or.inr ⟨"dedicated", _, rfl, Or.inl ⟨by simp, rfl⟩⟩
  | _ =>
    simp only [Call.run, Option.some.injEq] at h
    subst h
    left
    simp [AuroraJob.Constraints, AuroraJob.ExecutorName_eq, AuroraJob.ExecutorData_eq,
      AuroraJob.MaxFailure,
      AuroraJob.InstanceCount, AuroraJob.CronSchedule, AuroraJob.CronCollisionPolicy,
      AuroraJob.IsService, AuroraJob.AddURIs, AuroraJob.AddURIs_loop_eq, AuroraJob.AddLabel,
      AuroraJob.AddNamedPorts_eq, AuroraJob.AddPorts, AuroraJob.AddPorts_loop_eq,
      AuroraJob.Container, alloc]

theorem runAll_constraints (calls : List Call) (j0 j : AuroraJob)
    (h0 : ∀ x ∈ j0.Constraints, ∃ tc, x.Constraint = some tc ∧
      ((tc.Value ≠ none ∧ tc.Limit = none) ∨ (tc.Value = none ∧ tc.Limit ≠ none)))
    (h : runAll calls j0 = some j) :
    ∀ x ∈ j.Constraints, ∃ tc, x.Constraint = some tc ∧
      ((tc.Value ≠ none ∧ tc.Limit = none) ∨ (tc.Value = none ∧ tc.Limit ≠ none)) := by
  induction calls generalizing j0 with
  | nil =>
    simp only [runAll, Option.some.injEq] at h
    exact h ▸ h0
  | cons c cs ih =>
    simp only [runAll] at h
    split at h
    · exact Option.noConfusion h
    · rename_i j1 hj1
      refine ih j1 ?_ h
      rcases Call.run_constraints c j0 j1 hj1 with heq | ⟨name, tc, heq, htc⟩
      · rw [heq]
        exact h0
      · rw [heq]
        intro x hx
        rcases List.mem_append.mp hx with hx | hx
        · exact h0 x hx
        · rw [List.mem_singleton] at hx
          subst hx
          exact ⟨tc, rfl, htc⟩

/-! ## Chains of calls: the anonymous ports -/

theorem load_of_prefix {α : Type} (cells cells' : List α) (p : Option Addr) (v : α)
    (hp : cells <+: cells') (h : load cells p = some v) : load cells' p = some v := by
  obtain ⟨extra, rfl⟩ := hp
  exact load_append_left _ _ _ _ h

/-- A call on a shaped builder only extends the string cells and the resource list. -/
theorem Call.run_frame (c : Call) (j j' : AuroraJob) (hs : j.Shaped) (h : c.run j = some j') :
    j.heap.strings <+: j'.heap.strings ∧ j.Resources <+: j'.Resources := by
  cases c with
  | Environment env =>
    obtain ⟨a, key, _, _, rfl⟩ := AuroraJob.updateKey_eq_some _ _ _ h
    exact ⟨List.prefix_refl _, List.prefix_refl _⟩
  | Role role =>
    obtain ⟨a, key, _, _, rfl⟩ := AuroraJob.Role_eq_some _ _ _ h
    exact ⟨List.prefix_refl _, List.prefix_refl _⟩
  | Name name =>
    obtain ⟨a, key, _, _, rfl⟩ := AuroraJob.updateKey_eq_some _ _ _ h
    exact ⟨List.prefix_refl _, List.prefix_refl _⟩
  | CPU cpus =>
    obtain ⟨r, a, _, _, _, rfl⟩ := AuroraJob.CPU_eq_some _ _ _ h
    exact ⟨List.prefix_refl _, List.prefix_refl _⟩
  | RAM ram =>
    obtain ⟨r, a, _, _, _, rfl⟩ := AuroraJob.RAM_eq_some _ _ _ h
    exact ⟨List.prefix_refl _, List.prefix_refl _⟩
  | Disk disk =>
    obtain ⟨r, a, _, _, _, rfl⟩ := AuroraJob.Disk_eq_some _ _ _ h
    exact ⟨List.prefix_refl _, List.prefix_refl _⟩
  | Tier tier =>
    obtain ⟨a, ha, _, rfl⟩ := AuroraJob.Tier_eq_some _ _ _ h
    rw [hs.tier] at ha
    exact Option.noConfusion ha
  | _ =>
    simp only [Call.run, Option.some.injEq] at h
    subst h
    constructor <;>
      simp [AuroraJob.Resources, AuroraJob.ExecutorName_eq, AuroraJob.ExecutorData_eq,
        AuroraJob.MaxFailure,
        AuroraJob.InstanceCount, AuroraJob.CronSchedule, AuroraJob.CronCollisionPolicy,
        AuroraJob.IsService, AuroraJob.AddURIs, AuroraJob.AddURIs_loop_eq, AuroraJob.AddLabel,
        AuroraJob.AddNamedPorts_eq, AuroraJob.AddPorts, AuroraJob.AddPorts_loop_eq,
        AuroraJob.AddValueConstraint, AuroraJob.AddLimitConstraint,
        AuroraJob.AddDedicatedConstraint, AuroraJob.Container, alloc]

theorem portsRequested_nonneg (calls : List Call)
    (hnn : ∀ num, Call.AddPorts num ∈ calls → 0 ≤ num) : 0 ≤ portsRequested calls := by
  induction calls with
  | nil => simp [portsRequested]
  | cons c cs ih =>
    have ih' := ih (fun num hm => hnn num (List.mem_cons_of_mem _ hm))
    cases c with
    | AddPorts num =>
      have := hnn num (List.mem_cons_self _ _)
      simp only [portsRequested]
      omega
    | AddNamedPorts names =>
      simp only [portsRequested]
      omega
    | _ => simpa [portsRequested] using ih'


theorem portsRequested_cons (c : Call) (cs : List Call) :
    portsRequested (c :: cs) = portsRequested [c] + portsRequested cs := by
  cases c <;> simp [portsRequested]

theorem anonymousPorts_cons_of_ne (c : Call) (cs : List Call) (j j1 : AuroraJob)
    (h : c.run j = some j1) (hne : ∀ num, c ≠ .AddPorts num) :
    anonymousPorts (c :: cs) j = anonymousPorts cs j1 := by
  cases c with
  | AddPorts num => exact absurd rfl (hne num)
  | _ => simp only [anonymousPorts, h]

theorem anonymousPorts_cons_AddPorts (num : Int) (cs : List Call) (j : AuroraJob) :
    anonymousPorts (.AddPorts num :: cs) j =
      (j.AddPorts num).Resources.drop j.Resources.length ++ anonymousPorts cs (j.AddPorts num) := by
  simp only [anonymousPorts, Call.run]

/-- Without overflow one call advances the counter by the number of ports it asks for. -/
theorem Call.run_portCount_eq (c : Call) (j j1 : AuroraJob) (h : c.run j = some j1)
    (hlo : minInt ≤ j.portCount) (hnn : ∀ num, c = .AddPorts num → 0 ≤ num)
    (hhi : j.portCount + portsRequested [c] ≤ maxInt) :
    j1.portCount = j.portCount + portsRequested [c] := by
  by_cases hp : ∃ num, c = .AddPorts num
  · obtain ⟨num, rfl⟩ := hp
    have := hnn num rfl
    simp only [Call.run, Option.some.injEq] at h
    subst h
    simp only [portsRequested, add_zero] at hhi ⊢
    rw [AuroraJob.AddPorts_portCount]
    exact wrapInt_of_inRange _ (by omega) hhi
  · by_cases hn : ∃ names, c = .AddNamedPorts names
    · obtain ⟨names, rfl⟩ := hn
      simp only [Call.run, Option.some.injEq] at h
      subst h
      simp only [portsRequested, add_zero] at hhi ⊢
      rw [AuroraJob.AddNamedPorts_portCount]
      exact wrapInt_of_inRange _ (by omega) hhi
    · have h1 := Call.run_portCount c j j1 h (fun num hc => hp ⟨num, hc⟩)
        (fun names hc => hn ⟨names, hc⟩)
      have h2 : portsRequested [c] = 0 := by
        cases c with
        | AddPorts num => exact absurd ⟨num, rfl⟩ hp
        | AddNamedPorts names => exact absurd ⟨names, rfl⟩ hn
        | _ => rfl
      rw [h1, h2, add_zero]

theorem map_portName_of_prefix (j1 j : AuroraJob) (rs : List aurora.Resource)
    (names : List String) (hp : j1.heap.strings <+: j.heap.strings)
    (h : rs.map j1.portName = names.map some) : rs.map j.portName = names.map some := by
  rw [← h]
  apply List.map_congr_left
  intro r hr
  have hmem : j1.portName r ∈ names.map some := h ▸ List.mem_map_of_mem _ hr
  obtain ⟨s, _, hs⟩ := List.mem_map.mp hmem
  rw [← hs]
  exact load_of_prefix _ _ _ _ hp hs.symm


/-- The anonymous ports of a chain that does not overflow the counter: read in the final
state, their names carry a strictly increasing list of indices, none below the counter the
chain started from; and they lie in the resource list in the order they were appended. -/
theorem runAll_anonymousPorts (calls : List Call) (j0 j : AuroraJob) (hs : j0.Shaped)
    (h : runAll calls j0 = some j) (hnn : ∀ num, Call.AddPorts num ∈ calls → 0 ≤ num)
    (hlo : minInt ≤ j0.portCount) (hhi : j0.portCount + portsRequested calls ≤ maxInt) :
    j.portCount = j0.portCount + portsRequested calls ∧
    j0.heap.strings <+: j.heap.strings ∧
    j0.Resources <+: j.Resources ∧
    (anonymousPorts calls j0).Sublist (j.Resources.drop j0.Resources.length) ∧
    ∃ idx : List Int, idx.Pairwise (fun a b => a < b) ∧ (∀ i ∈ idx, j0.portCount ≤ i) ∧
      (anonymousPorts calls j0).map j.portName =
        (idx.map (fun i => portNameStem ++ strconv.Itoa i)).map some := by
  induction calls generalizing j0 with
  | nil =>
    simp only [runAll, Option.some.injEq] at h
    subst h
    refine ⟨by simp [portsRequested], List.prefix_refl _, List.prefix_refl _, ?_, [], ?_⟩
    · simp [anonymousPorts]
    · simp [anonymousPorts]
  | cons c cs ih =>
    simp only [runAll] at h
    split at h
    · exact Option.noConfusion h
    · rename_i j1 hj1
      have hs1 := Call.run_shaped c j0 j1 hs hj1
      obtain ⟨f1, f2⟩ := Call.run_frame c j0 j1 hs hj1
      have hnn' : ∀ num, Call.AddPorts num ∈ cs → 0 ≤ num :=
        fun num hm => hnn num (List.mem_cons_of_mem _ hm)
      have hpr := portsRequested_nonneg cs hnn'
      have hpc : 0 ≤ portsRequested [c] :=
        portsRequested_nonneg [c] (fun num hm => hnn num (by
          rw [List.mem_singleton] at hm
          exact hm ▸ List.mem_cons_self _ _))
      rw [portsRequested_cons] at hhi ⊢
      have hc1 := Call.run_portCount_eq c j0 j1 hj1 hlo
        (fun num hc => hnn num (hc ▸ List.mem_cons_self _ _)) (by omega)
      obtain ⟨i1, i2, i3, i4, idx, i5, i6, i7⟩ := ih j1 hs1 h hnn' (by omega) (by omega)
      have hlen : j0.Resources.length ≤ j1.Resources.length := f2.length_le
      have hsub : (j.Resources.drop j1.Resources.length).Sublist
          (j.Resources.drop j0.Resources.length) := by
        have : j.Resources.drop j1.Resources.length =
            (j.Resources.drop j0.Resources.length).drop
              (j1.Resources.length - j0.Resources.length) := by
          rw [List.drop_drop]
          congr 1
          omega
        rw [this]
        exact List.drop_sublist _ _
      refine ⟨by omega, f1.trans i2, f2.trans i3, ?_, ?_⟩
      · by_cases hp : ∃ num, c = .AddPorts num
        · obtain ⟨num, rfl⟩ := hp
          simp only [Call.run, Option.some.injEq] at hj1
          subst hj1
          rw [anonymousPorts_cons_AddPorts]
          obtain ⟨R, hR⟩ := i3
          rw [← hR, List.drop_append_of_le_length hlen]
          have : (j0.AddPorts num).Resources.drop j0.Resources.length ++ R =
              (j0.AddPorts num).Resources.drop j0.Resources.length ++
                ((j0.AddPorts num).Resources ++ R).drop (j0.AddPorts num).Resources.length := by
            simp
          rw [this, hR]
          exact List.Sublist.append (List.Sublist.refl _) i4
        · rw [anonymousPorts_cons_of_ne c cs j0 j1 hj1 (fun num hc => hp ⟨num, hc⟩)]
          exact i4.trans hsub
      · by_cases hp : ∃ num, c = .AddPorts num
        · obtain ⟨num, rfl⟩ := hp
          have hnum : 0 ≤ num := hnn num (List.mem_cons_self _ _)
          simp only [Call.run, Option.some.injEq] at hj1
          subst hj1
          simp only [portsRequested, add_zero] at hhi hc1 hpc
          have hnames := AuroraJob.AddPorts_names j0 num hnum hlo (by omega)
          have hnames' : ((j0.AddPorts num).Resources.drop j0.Resources.length).map
              (j0.AddPorts num).portName =
              (((List.range num.toNat).map (fun (k : Nat) => j0.portCount + (k : Int))).map
                (fun i => portNameStem ++ strconv.Itoa i)).map some := by
            rw [hnames]
            simp [List.map_map, Function.comp_def]
          refine ⟨(List.range num.toNat).map (fun (k : Nat) => j0.portCount + (k : Int)) ++ idx,
            ?_, ?_, ?_⟩
          · rw [List.pairwise_append]
            refine ⟨?_, i5, ?_⟩
            · rw [List.pairwise_map]
              exact (List.pairwise_lt_range _).imp (fun hab => by omega)
            · intro a ha b hb
              obtain ⟨k, hk, rfl⟩ := List.mem_map.mp ha
              have hk2 : k < num.toNat := List.mem_range.mp hk
              have := i6 b hb
              omega
          · intro i hi
            rcases List.mem_append.mp hi with hi | hi
            · obtain ⟨k, _, rfl⟩ := List.mem_map.mp hi
              omega
            · have := i6 i hi
              omega
          · rw [anonymousPorts_cons_AddPorts, List.map_append, List.map_append, List.map_append,
              i7, map_portName_of_prefix _ j _ _ i2 hnames']
        · rw [anonymousPorts_cons_of_ne c cs j0 j1 hj1 (fun num hc => hp ⟨num, hc⟩)]
          exact ⟨idx, i5, fun i hi => by have := i6 i hi; omega, i7⟩


theorem portName_of_index_injective (a b : Int)
    (h : some (portNameStem ++ strconv.Itoa a) = some (portNameStem ++ strconv.Itoa b)) :
    a = b :=
  Itoa_injective a b (String_append_left_cancel _ _ _ (Option.some.inj h))

/-! ## Chains of calls: container, resource list, fetch list -/

/-- What one call does to the container descriptor. -/
theorem Call.run_container (c : Call) (j j' : AuroraJob) (h : c.run j = some j') :
    (∀ container, c = .Container container →
      j'.jobConfig.TaskConfig.Container = some container.Build) ∧
    ((∀ container, c ≠ .Container container) →
      j'.jobConfig.TaskConfig.Container = j.jobConfig.TaskConfig.Container) := by
  cases c with
  | Environment env =>
    obtain ⟨a, key, _, _, rfl⟩ := AuroraJob.updateKey_eq_some _ _ _ h
    exact ⟨(fun _ hc => by cases hc), fun _ => rfl⟩
  | Role role =>
    obtain ⟨a, key, _, _, rfl⟩ := AuroraJob.Role_eq_some _ _ _ h
    exact ⟨(fun _ hc => by cases hc), fun _ => rfl⟩
  | Name name =>
    obtain ⟨a, key, _, _, rfl⟩ := AuroraJob.updateKey_eq_some _ _ _ h
    exact ⟨(fun _ hc => by cases hc), fun _ => rfl⟩
  | CPU cpus =>
    obtain ⟨r, a, _, _, _, rfl⟩ := AuroraJob.CPU_eq_some _ _ _ h
    exact ⟨(fun _ hc => by cases hc), fun _ => rfl⟩
  | RAM ram =>
    obtain ⟨r, a, _, _, _, rfl⟩ := AuroraJob.RAM_eq_some _ _ _ h
    exact ⟨(fun _ hc => by cases hc), fun _ => rfl⟩
  | Disk disk =>
    obtain ⟨r, a, _, _, _, rfl⟩ := AuroraJob.Disk_eq_some _ _ _ h
    exact ⟨(fun _ hc => by cases hc), fun _ => rfl⟩
  | Tier tier =>
    obtain ⟨a, _, _, rfl⟩ := AuroraJob.Tier_eq_some _ _ _ h
    exact ⟨(fun _ hc => by cases hc), fun _ => rfl⟩
  | Container container =>
    simp only [Call.run, Option.some.injEq] at h
    subst h
    refine ⟨?_, fun hne => absurd rfl (hne container)⟩
    intro x hc
    cases hc
    rfl
  | _ =>
    simp only [Call.run, Option.some.injEq] at h
    subst h
    refine ⟨(fun _ hc => by cases hc), fun _ => ?_⟩
    simp [AuroraJob.ExecutorName_eq, AuroraJob.ExecutorData_eq, AuroraJob.MaxFailure,
      AuroraJob.InstanceCount, AuroraJob.CronSchedule, AuroraJob.CronCollisionPolicy,
      AuroraJob.IsService, AuroraJob.AddURIs, AuroraJob.AddURIs_loop_eq, AuroraJob.AddLabel,
      AuroraJob.AddNamedPorts_eq, AuroraJob.AddPorts, AuroraJob.AddPorts_loop_eq,
      AuroraJob.AddValueConstraint, AuroraJob.AddLimitConstraint,
      AuroraJob.AddDedicatedConstraint, alloc]

/-- The container descriptor after a chain: the one built by the last `Container` call, or
the one held before the chain. -/
theorem runAll_container (calls : List Call) (j0 j : AuroraJob) (d0 : aurora.Container)
    (h0 : j0.jobConfig.TaskConfig.Container = some d0) (h : runAll calls j0 = some j) :
    j.jobConfig.TaskConfig.Container = some
      (calls.foldl
        (fun acc c => match c with | .Container container => container.Build | _ => acc) d0) := by
  induction calls generalizing j0 d0 with
  | nil =>
    simp only [runAll, Option.some.injEq] at h
    subst h
    simpa using h0
  | cons c cs ih =>
    simp only [runAll] at h
    split at h
    · exact Option.noConfusion h
    · rename_i j1 hj1
      obtain ⟨hC, hO⟩ := Call.run_container c j0 j1 hj1
      cases c with
      | Container container => simpa using ih j1 _ (hC container rfl) h
      | _ => simpa using ih j1 d0 ((hO (fun _ hc => by cases hc)).trans h0) h

/-- What one call does to the resource list: it appends named-port entries, or nothing. -/
theorem Call.run_resources (c : Call) (j j' : AuroraJob) (h : c.run j = some j') :
    ∃ extra, j'.Resources = j.Resources ++ extra ∧
      ∀ r ∈ extra, r.NumCpus = none ∧ r.RamMb = none ∧ r.DiskMb = none ∧ r.NamedPort ≠ none := by
  cases c with
  | Environment env =>
    obtain ⟨a, key, _, _, rfl⟩ := AuroraJob.updateKey_eq_some _ _ _ h
    exact ⟨[], by simp, by simp⟩
  | Role role =>
    obtain ⟨a, key, _, _, rfl⟩ := AuroraJob.Role_eq_some _ _ _ h
    exact ⟨[], by simp, by simp⟩
  | Name name =>
    obtain ⟨a, key, _, _, rfl⟩ := AuroraJob.updateKey_eq_some _ _ _ h
    exact ⟨[], by simp, by simp⟩
  | CPU cpus =>
    obtain ⟨r, a, _, _, _, rfl⟩ := AuroraJob.CPU_eq_some _ _ _ h
    exact ⟨[], by simp, by simp⟩
  | RAM ram =>
    obtain ⟨r, a, _, _, _, rfl⟩ := AuroraJob.RAM_eq_some _ _ _ h
    exact ⟨[], by simp, by simp⟩
  | Disk disk =>
    obtain ⟨r, a, _, _, _, rfl⟩ := AuroraJob.Disk_eq_some _ _ _ h
    exact ⟨[], by simp, by simp⟩
  | Tier tier =>
    obtain ⟨a, _, _, rfl⟩ := AuroraJob.Tier_eq_some _ _ _ h
    exact ⟨[], by simp, by simp⟩
  | AddNamedPorts names =>
    simp only [Call.run, Option.some.injEq] at h
    subst h
    rw [AuroraJob.AddNamedPorts_eq]
    refine ⟨_, rfl, ?_⟩
    intro r hr
    rw [List.eq_of_mem_replicate hr]
    simp
  | AddPorts num =>
    simp only [Call.run, Option.some.injEq] at h
    subst h
    simp only [AuroraJob.AddPorts, AuroraJob.AddPorts_loop_eq]
    refine ⟨_, rfl, ?_⟩
    intro r hr
    obtain ⟨k, _, rfl⟩ := List.mem_map.mp hr
    simp
  | _ =>
    simp only [Call.run, Option.some.injEq] at h
    subst h
    refine ⟨[], ?_, by simp⟩
    simp [AuroraJob.Resources, AuroraJob.ExecutorName_eq, AuroraJob.ExecutorData_eq,
      AuroraJob.MaxFailure,
      AuroraJob.InstanceCount, AuroraJob.CronSchedule, AuroraJob.CronCollisionPolicy,
      AuroraJob.IsService, AuroraJob.AddURIs, AuroraJob.AddURIs_loop_eq, AuroraJob.AddLabel,
      AuroraJob.AddValueConstraint, AuroraJob.AddLimitConstraint,
      AuroraJob.AddDedicatedConstraint, AuroraJob.Container, alloc]

theorem runAll_resources (calls : List Call) (j0 j : AuroraJob) (h : runAll calls j0 = some j) :
    ∃ extra, j.Resources = j0.Resources ++ extra ∧
      ∀ r ∈ extra, r.NumCpus = none ∧ r.RamMb = none ∧ r.DiskMb = none ∧ r.NamedPort ≠ none := by
  induction calls generalizing j0 with
  | nil =>
    simp only [runAll, Option.some.injEq] at h
    subst h
    exact ⟨[], by simp, by simp⟩
  | cons c cs ih =>
    simp only [runAll] at h
    split at h
    · exact Option.noConfusion h
    · rename_i j1 hj1
      obtain ⟨e1, h1, p1⟩ := Call.run_resources c j0 j1 hj1
      obtain ⟨e2, h2, p2⟩ := ih j1 h
      refine ⟨e1 ++ e2, by rw [h2, h1, List.append_assoc], ?_⟩
      intro r hr
      rcases List.mem_append.mp hr with hr | hr
      · exact p1 r hr
      · exact p2 r hr

/-- On a shaped builder the three resource setters complete, and each replaces one cell. -/
theorem AuroraJob.Shaped.setters (j : AuroraJob) (hs : j.Shaped) :
    (∀ cpus, j.CPU cpus = some { j with heap.float64s := j.heap.float64s.set 0 cpus }) ∧
    (∀ ram, j.RAM ram = some { j with heap.int64s := j.heap.int64s.set 0 ram }) ∧
    (∀ disk, j.Disk disk = some { j with heap.int64s := j.heap.int64s.set 1 disk }) := by
  obtain ⟨_, _, _, _, h5, h6, h7⟩ := hs
  refine ⟨fun cpus => ?_, fun ram => ?_, fun disk => ?_⟩
  · simp [AuroraJob.CPU, store, h5, h6, NewJob, List.lookup]
  · simp [AuroraJob.RAM, store, h5, h7, NewJob, List.lookup]
  · simp [AuroraJob.Disk, store, h5, h7, NewJob, List.lookup]

/-- The mutator `AddURIs` as one record update: two fresh flag cells, and one directive per
value, every one pointing at those two cells. -/
theorem AuroraJob.AddURIs_eq (extract cache : Bool) (values : List String) (j : AuroraJob) :
    j.AddURIs extract cache values =
      { j with
        heap.bools := j.heap.bools ++ [extract, cache]
        jobConfig.TaskConfig.MesosFetcherUris := j.jobConfig.TaskConfig.MesosFetcherUris ++
          values.map (fun value =>
            ({ Value := value, Extract := some j.heap.bools.length,
               Cache := some (j.heap.bools.length + 1) } : aurora.MesosFetcherURI)) } := by
  simp [AuroraJob.AddURIs, AuroraJob.AddURIs_loop_eq, alloc]

/-- Every call but the two port calls leaves the resource list alone. -/
theorem Call.run_resources_eq (c : Call) (j j' : AuroraJob) (h : c.run j = some j')
    (hp : ∀ num, c ≠ .AddPorts num) (hn : ∀ names, c ≠ .AddNamedPorts names) :
    j'.Resources = j.Resources := by
  cases c with
  | Environment env =>
    obtain ⟨a, key, _, _, rfl⟩ := AuroraJob.updateKey_eq_some _ _ _ h
    rfl
  | Role role =>
    obtain ⟨a, key, _, _, rfl⟩ := AuroraJob.Role_eq_some _ _ _ h
    rfl
  | Name name =>
    obtain ⟨a, key, _, _, rfl⟩ := AuroraJob.updateKey_eq_some _ _ _ h
    rfl
  | CPU cpus =>
    obtain ⟨r, a, _, _, _, rfl⟩ := AuroraJob.CPU_eq_some _ _ _ h
    rfl
  | RAM ram =>
    obtain ⟨r, a, _, _, _, rfl⟩ := AuroraJob.RAM_eq_some _ _ _ h
    rfl
  | Disk disk =>
    obtain ⟨r, a, _, _, _, rfl⟩ := AuroraJob.Disk_eq_some _ _ _ h
    rfl
  | Tier tier =>
    obtain ⟨a, _, _, rfl⟩ := AuroraJob.Tier_eq_some _ _ _ h
    rfl
  | AddPorts num => exact absurd rfl (hp num)
  | AddNamedPorts names => exact absurd rfl (hn names)
  | _ =>
    simp only [Call.run, Option.some.injEq] at h
    subst h
    simp [AuroraJob.Resources, AuroraJob.ExecutorName_eq, AuroraJob.ExecutorData_eq,
      AuroraJob.MaxFailure,
      AuroraJob.InstanceCount, AuroraJob.CronSchedule, AuroraJob.CronCollisionPolicy,
      AuroraJob.IsService, AuroraJob.AddURIs, AuroraJob.AddURIs_loop_eq, AuroraJob.AddLabel,
      AuroraJob.AddValueConstraint, AuroraJob.AddLimitConstraint,
      AuroraJob.AddDedicatedConstraint, AuroraJob.Container, alloc]

/-- Without overflow one call lengthens the resource list by the number of ports it asks
for. -/
theorem Call.run_resources_length (c : Call) (j j1 : AuroraJob) (h : c.run j = some j1)
    (hlo : minInt ≤ j.portCount) (hnn : ∀ num, c = .AddPorts num → 0 ≤ num)
    (hhi : j.portCount + portsRequested [c] ≤ maxInt) :
    (j1.Resources.length : Int) = j.Resources.length + portsRequested [c] := by
  by_cases hp : ∃ num, c = .AddPorts num
  · obtain ⟨num, rfl⟩ := hp
    have hnum := hnn num rfl
    simp only [Call.run, Option.some.injEq] at h
    subst h
    simp only [portsRequested, add_zero] at hhi ⊢
    rw [AuroraJob.AddPorts_eq j num hnum hlo hhi]
    simp [AuroraJob.Resources]
    omega
  · by_cases hn : ∃ names, c = .AddNamedPorts names
    · obtain ⟨names, rfl⟩ := hn
      simp only [Call.run, Option.some.injEq] at h
      subst h
      rw [AuroraJob.AddNamedPorts_eq]
      simp [AuroraJob.Resources, portsRequested]
    · have h1 := Call.run_resources_eq c j j1 h (fun num hc => hp ⟨num, hc⟩)
        (fun names hc => hn ⟨names, hc⟩)
      have h2 : portsRequested [c] = 0 := by
        cases c with
        | AddPorts num => exact absurd ⟨num, rfl⟩ hp
        | AddNamedPorts names => exact absurd ⟨names, rfl⟩ hn
        | _ => rfl
      rw [h1, h2, add_zero]

theorem runAll_resources_length (calls : List Call) (j0 j : AuroraJob)
    (h : runAll calls j0 = some j) (hnn : ∀ num, Call.AddPorts num ∈ calls → 0 ≤ num)
    (hlo : minInt ≤ j0.portCount) (hhi : j0.portCount + portsRequested calls ≤ maxInt) :
    j.portCount = j0.portCount + portsRequested calls ∧
    (j.Resources.length : Int) = j0.Resources.length + portsRequested calls := by
  induction calls generalizing j0 with
  | nil =>
    simp only [runAll, Option.some.injEq] at h
    subst h
    simp [portsRequested]
  | cons c cs ih =>
    simp only [runAll] at h
    split at h
    · exact Option.noConfusion h
    · rename_i j1 hj1
      have hnn' : ∀ num, Call.AddPorts num ∈ cs → 0 ≤ num :=
        fun num hm => hnn num (List.mem_cons_of_mem _ hm)
      have hnc : ∀ num, c = .AddPorts num → 0 ≤ num :=
        fun num hc => hnn num (hc ▸ List.mem_cons_self _ _)
      have hpr := portsRequested_nonneg cs hnn'
      rw [portsRequested_cons] at hhi ⊢
      have hc1 := Call.run_portCount_eq c j0 j1 hj1 hlo hnc (by omega)
      have hl1 := Call.run_resources_length c j0 j1 hj1 hlo hnc (by omega)
      have hpc : 0 ≤ portsRequested [c] :=
        portsRequested_nonneg [c] (fun num hm => hnc num (by
          rw [List.mem_singleton] at hm
          exact hm.symm))
      obtain ⟨i1, i2⟩ := ih j1 h hnn' (by omega) (by omega)
      constructor <;> omega

/-! ## The counter never runs ahead of the resource list -/

theorem wrapInt_le_self (x : Int) (h : minInt ≤ x) : wrapInt x ≤ x := by
  unfold wrapInt
  unfold minInt at h
  omega

theorem AuroraJob.AddPorts_resources_length (num : Int) (j : AuroraJob) :
    (j.AddPorts num).Resources.length =
      j.Resources.length + (wrapInt (j.portCount + num) - j.portCount).toNat := by
  simp [AuroraJob.AddPorts, AuroraJob.AddPorts_loop_eq, AuroraJob.Resources]

/-- One call keeps the counter an `int` that is at most the number of entries beyond the
three base ones, overflow included: the counter only rises by as much as the list grows. -/
theorem Call.run_counter_bound (c : Call) (j j' : AuroraJob) (h : c.run j = some j')
    (hlo : minInt ≤ j.portCount) (hb : j.portCount + 3 ≤ j.Resources.length) :
    minInt ≤ j'.portCount ∧ j'.portCount + 3 ≤ j'.Resources.length := by
  by_cases hp : ∃ num, c = .AddPorts num
  · obtain ⟨num, rfl⟩ := hp
    simp only [Call.run, Option.some.injEq] at h
    subst h
    rw [AuroraJob.AddPorts_portCount, AuroraJob.AddPorts_resources_length]
    have := wrapInt_ge (j.portCount + num)
    refine ⟨this, ?_⟩
    push_cast
    omega
  · by_cases hn : ∃ names, c = .AddNamedPorts names
    · obtain ⟨names, rfl⟩ := hn
      simp only [Call.run, Option.some.injEq] at h
      subst h
      have h1 := wrapInt_ge (j.portCount + names.length)
      have h2 := wrapInt_le_self (j.portCount + names.length) (by omega)
      have h3 : (j.AddNamedPorts names).Resources.length = j.Resources.length + names.length := by
        rw [AuroraJob.AddNamedPorts_eq]
        simp [AuroraJob.Resources]
      rw [AuroraJob.AddNamedPorts_portCount, h3]
      refine ⟨h1, ?_⟩
      push_cast
      omega
    · have h1 := Call.run_portCount c j j' h (fun num hc => hp ⟨num, hc⟩)
        (fun names hc => hn ⟨names, hc⟩)
      have h2 := Call.run_resources_eq c j j' h (fun num hc => hp ⟨num, hc⟩)
        (fun names hc => hn ⟨names, hc⟩)
      rw [h1, h2]
      exact ⟨hlo, hb⟩

/-- In every state a chain reaches from a state with this bound, the counter is an `int` and
at most the number of entries beyond the three base ones. -/
theorem runAll_counter_bound (calls : List Call) (j0 j : AuroraJob) (h : runAll calls j0 = some j)
    (hlo : minInt ≤ j0.portCount) (hb : j0.portCount + 3 ≤ j0.Resources.length) :
    minInt ≤ j.portCount ∧ j.portCount + 3 ≤ j.Resources.length := by
  induction calls generalizing j0 with
  | nil =>
    simp only [runAll, Option.some.injEq] at h
    subst h
    exact ⟨hlo, hb⟩
  | cons c cs ih =>
    simp only [runAll] at h
    split at h
    · exact Option.noConfusion h
    · rename_i j1 hj1
      obtain ⟨h1, h2⟩ := Call.run_counter_bound c j0 j1 hj1 hlo hb
      exact ih j1 h h1 h2

/-- Without overflow the anonymous port that follows `AddNamedPorts` is numbered by the
counter before the call plus the number of names. -/
theorem AuroraJob.AddNamedPorts_AddPorts_names (j : AuroraJob) (names : List String)
    (hlo : minInt ≤ j.portCount) (hhi : j.portCount + names.length < maxInt) :
    (((j.AddNamedPorts names).AddPorts 1).Resources.drop
        (j.AddNamedPorts names).Resources.length).map
      ((j.AddNamedPorts names).AddPorts 1).portName =
      [some (portNameStem ++ strconv.Itoa (j.portCount + names.length))] := by
  have hc : (j.AddNamedPorts names).portCount = j.portCount + names.length := by
    rw [AuroraJob.AddNamedPorts_portCount]
    exact wrapInt_of_inRange _ (by omega) (by omega)
  rw [AuroraJob.AddPorts_names _ 1 (by decide) (by omega) (by omega), hc]
  simp [List.range_succ]

/-! ## C1: what `AddPorts` appends -/

/-- C1 (amended): for every builder state whose port counter `c` is an `int`, and every
`num ≥ 0` with `c + num` not above the largest `int`, `AddPorts(num)` sets the counter to
`c + num`, lengthens the task's resource list by exactly `num` entries and keeps the
earlier entries in place; the `k`-th appended entry is a named-port entry carrying the
name `org.apache.aurora.port.` followed by the decimal rendering of `c + k`; and what the
earlier entries point at is unchanged (the cpu/ram/disk cells and every name already
readable). -/
theorem C1_AddPorts_appends_generated_names (j : AuroraJob) (num : Int)
    (hnum : 0 ≤ num) (hlo : minInt ≤ j.portCount) (hhi : j.portCount + num ≤ maxInt) :
    (j.AddPorts num).portCount = j.portCount + num ∧
    (j.AddPorts num).Resources.length = j.Resources.length + num.toNat ∧
    (j.AddPorts num).Resources.take j.Resources.length = j.Resources ∧
    ((j.AddPorts num).Resources.drop j.Resources.length).map (j.AddPorts num).portName =
      (List.range num.toNat).map
        (fun (k : Nat) => some (portNameStem ++ strconv.Itoa (j.portCount + (k : Int)))) ∧
    (∀ r ∈ (j.AddPorts num).Resources.drop j.Resources.length,
      r.NumCpus = none ∧ r.RamMb = none ∧ r.DiskMb = none ∧ r.NamedPort ≠ none) ∧
    (j.AddPorts num).heap.float64s = j.heap.float64s ∧
    (j.AddPorts num).heap.int64s = j.heap.int64s ∧
    (∀ r ∈ j.Resources, ∀ s, j.portName r = some s → (j.AddPorts num).portName r = some s) := by
  rw [AuroraJob.AddPorts_eq j num hnum hlo hhi]
  refine ⟨rfl, by simp [AuroraJob.Resources], by simp [AuroraJob.Resources], ?_, ?_, rfl, rfl, ?_⟩
  · simp only [AuroraJob.Resources, List.drop_left, List.map_map, AuroraJob.portName]
    apply List.map_congr_left
    intro k hk
    have hk2 : k < num.toNat := List.mem_range.mp hk
    simp [AuroraJob.portName, load, List.getElem?_append_right, hk2, List.getElem_append_right]
  · intro r hr
    simp only [AuroraJob.Resources, List.drop_left, List.mem_map] at hr
    obtain ⟨k, _, rfl⟩ := hr
    simp
  · intro r _ s hs
    exact load_append_left _ _ _ _ hs

/-- C1 at the inputs the claim names: on a fresh builder `AddPorts(3)` generates the names
`...port.0`, `...port.1`, `...port.2`, and a following `AddPorts(2)` generates `...port.3`,
`...port.4`. -/
theorem C1_AddPorts_appends_generated_names_witness :
    ((0 : Int) ≤ 3 ∧ minInt ≤ NewJob.portCount ∧ NewJob.portCount + 3 ≤ maxInt) ∧
    ((NewJob.AddPorts 3).Resources.drop NewJob.Resources.length).map (NewJob.AddPorts 3).portName =
      [some "org.apache.aurora.port.0", some "org.apache.aurora.port.1",
        some "org.apache.aurora.port.2"] ∧
    (((NewJob.AddPorts 3).AddPorts 2).Resources.drop (NewJob.AddPorts 3).Resources.length).map
        ((NewJob.AddPorts 3).AddPorts 2).portName =
      [some "org.apache.aurora.port.3", some "org.apache.aurora.port.4"] :=
  ⟨by decide,
    (C1_AddPorts_appends_generated_names NewJob 3 (by decide) (by decide)
      (by decide)).2.2.2.1.trans (by decide),
    (C1_AddPorts_appends_generated_names (NewJob.AddPorts 3) 2 (by decide) (by decide)
      (by decide)).2.2.2.1.trans (by decide)⟩

/-- C1 as stated fails when the counter overflows: after `NewJob().AddPorts(1)` the counter
is 1, and `AddPorts(9223372036854775807)`, a non-negative count, wraps the counter to the
smallest `int`, so the loop does not run: nothing is appended and the counter is not
`c + num`. -/
theorem C1_counterexample_counter_overflow :
    (0 : Int) ≤ 9223372036854775807 ∧
    (NewJob.AddPorts 1).portCount = 1 ∧
    ((NewJob.AddPorts 1).AddPorts 9223372036854775807).Resources = (NewJob.AddPorts 1).Resources ∧
    ((NewJob.AddPorts 1).AddPorts 9223372036854775807).Resources.length ≠
      (NewJob.AddPorts 1).Resources.length + (9223372036854775807 : Int).toNat ∧
    ((NewJob.AddPorts 1).AddPorts 9223372036854775807).portCount = -9223372036854775808 ∧
    ((NewJob.AddPorts 1).AddPorts 9223372036854775807).portCount ≠
      (NewJob.AddPorts 1).portCount + 9223372036854775807 := by
  decide

/-! ## C2: the anonymous index counts named ports too -/

/-- C2: for every builder state that a chain of mutator calls reaches from `NewJob()`, with
port counter `c`, and every list of names, `AddNamedPorts(names...)` followed by
`AddPorts(1)` appends exactly one anonymous entry, and it carries the name
`org.apache.aurora.port.` followed by the decimal rendering of `c + len(names)`.  The
resource list that holds the named ports is a Go slice, so its length is an `int`
(`hlen`); in a reachable state the counter is at most the number of port entries, so the
counter cannot overflow. -/
theorem C2_named_then_anonymous_index (calls : List Call) (j : AuroraJob)
    (h : runAll calls NewJob = some j) (names : List String)
    (hlen : ((j.AddNamedPorts names).Resources.length : Int) ≤ maxInt) :
    (((j.AddNamedPorts names).AddPorts 1).Resources.drop
        (j.AddNamedPorts names).Resources.length).map
      ((j.AddNamedPorts names).AddPorts 1).portName =
      [some (portNameStem ++ strconv.Itoa (j.portCount + names.length))] := by
  obtain ⟨hlo, hb⟩ := runAll_counter_bound calls NewJob j h (by decide) (by decide)
  have h3 : (j.AddNamedPorts names).Resources.length = j.Resources.length + names.length := by
    rw [AuroraJob.AddNamedPorts_eq]
    simp [AuroraJob.Resources]
  rw [h3] at hlen
  push_cast at hlen
  exact AuroraJob.AddNamedPorts_AddPorts_names j names hlo (by omega)

/-- C2 at the inputs the claim names: on a fresh builder `AddNamedPorts("a", "b")` followed
by `AddPorts(1)` yields the anonymous name `...port.2`; and on a builder that already has
two anonymous ports, `AddNamedPorts("a")` followed by `AddPorts(1)` yields `...port.3`. -/
theorem C2_named_then_anonymous_index_witness :
    (runAll [] NewJob = some NewJob ∧
      (((NewJob.AddNamedPorts ["a", "b"]).Resources.length : Nat) : Int) ≤ maxInt) ∧
    (((NewJob.AddNamedPorts ["a", "b"]).AddPorts 1).Resources.drop
        (NewJob.AddNamedPorts ["a", "b"]).Resources.length).map
      ((NewJob.AddNamedPorts ["a", "b"]).AddPorts 1).portName =
      [some "org.apache.aurora.port.2"] ∧
    ((((NewJob.AddPorts 2).AddNamedPorts ["a"]).AddPorts 1).Resources.drop
        ((NewJob.AddPorts 2).AddNamedPorts ["a"]).Resources.length).map
      (((NewJob.AddPorts 2).AddNamedPorts ["a"]).AddPorts 1).portName =
      [some "org.apache.aurora.port.3"] :=
  ⟨by decide,
    (C2_named_then_anonymous_index [] NewJob rfl ["a", "b"] (by decide)).trans (by decide),
    (C2_named_then_anonymous_index [.AddPorts 2] (NewJob.AddPorts 2) rfl ["a"]
      (by decide)).trans (by decide)⟩

/-! ## C3: the names `AddNamedPorts` stores -/

/-- Every entry that `AddNamedPorts` appends points at the one loop variable, so after the
call every one of them carries the last name of the call. -/
theorem AuroraJob.AddNamedPorts_names (names : List String) (j : AuroraJob) :
    ((j.AddNamedPorts names).Resources.drop j.Resources.length).map
      (j.AddNamedPorts names).portName =
      List.replicate names.length (some (names.getLastD "")) := by
  rw [AuroraJob.AddNamedPorts_eq]
  simp [AuroraJob.Resources, AuroraJob.portName, load]

/-- C3 (code defect): `NewJob().AddNamedPorts("a", "b")` appends two entries, and both carry
the name `b`; the claim has the first one carry `a`. -/
theorem C3_AddNamedPorts_entries_carry_last_name :
    ((NewJob.AddNamedPorts ["a", "b"]).Resources.drop NewJob.Resources.length).map
      (NewJob.AddNamedPorts ["a", "b"]).portName = [some "b", some "b"] ∧
    ((NewJob.AddNamedPorts ["a", "b"]).Resources.drop NewJob.Resources.length).map
      (NewJob.AddNamedPorts ["a", "b"]).portName ≠ [some "a", some "b"] ∧
    (NewJob.AddNamedPorts ["a", "b"]).portCount = NewJob.portCount + 2 := by
  decide

/-! ## C4: `Tier` -/

/-- C4 (code defect): in every state that a chain of mutator calls reaches from `NewJob()`,
the fresh builder included, `Tier(name)` panics: the `Tier` pointer of the task
configuration is `nil`, no mutator assigns it, and `Tier` writes through it. -/
theorem C4_Tier_panics_on_every_reachable_builder (calls : List Call) (j : AuroraJob)
    (h : runAll calls NewJob = some j) (tier : String) : j.Tier tier = none := by
  have hs := runAll_shaped calls NewJob j AuroraJob.Shaped_NewJob h
  simp [AuroraJob.Tier, store, hs.tier]

/-- C4 on the fresh builder. -/
theorem C4_Tier_panics_on_every_reachable_builder_witness :
    runAll [] NewJob = some NewJob ∧ NewJob.Tier "preferred" = none :=
  ⟨rfl, C4_Tier_panics_on_every_reachable_builder [] NewJob rfl "preferred"⟩

/-! ## C5: the port counter -/

/-- C5 (amended): a mutator call never lowers the port counter, provided the counter does
not overflow and the count of an `AddPorts` call is not negative.  For every builder state
whose counter `c` is an `int` and every call that completes: `AddPorts(num)` with
`num ≥ 0` and `c + num` at most the largest `int` leaves the counter at `c + num`;
`AddNamedPorts(names...)` with `c + len(names)` at most the largest `int` leaves it at
`c + len(names)`; every other mutator leaves it at `c`. -/
theorem C5_port_counter_never_decreases_without_overflow (c : Call) (j j' : AuroraJob)
    (hrun : c.run j = some j') (hlo : minInt ≤ j.portCount)
    (hports : ∀ num, c = .AddPorts num → 0 ≤ num ∧ j.portCount + num ≤ maxInt)
    (hnamed : ∀ names : List String, c = .AddNamedPorts names →
      j.portCount + names.length ≤ maxInt) :
    j.portCount ≤ j'.portCount ∧
    (∀ num, c = .AddPorts num → j'.portCount = j.portCount + num) ∧
    (∀ names : List String, c = .AddNamedPorts names →
      j'.portCount = j.portCount + names.length) ∧
    ((∀ num, c ≠ .AddPorts num) → (∀ names, c ≠ .AddNamedPorts names) →
      j'.portCount = j.portCount) := by
  by_cases hp : ∃ num, c = .AddPorts num
  · obtain ⟨num, rfl⟩ := hp
    obtain ⟨h0, h1⟩ := hports num rfl
    simp only [Call.run, Option.some.injEq] at hrun
    subst hrun
    have hc : (j.AddPorts num).portCount = j.portCount + num := by
      rw [AuroraJob.AddPorts_portCount]
      exact wrapInt_of_inRange _ (by omega) h1
    refine ⟨by omega, ?_, ?_, ?_⟩
    · intro n hn
      cases hn
      exact hc
    · intro names hn
      cases hn
    · intro hne
      exact absurd rfl (hne num)
  · by_cases hn : ∃ names, c = .AddNamedPorts names
    · obtain ⟨names, rfl⟩ := hn
      have h1 := hnamed names rfl
      simp only [Call.run, Option.some.injEq] at hrun
      subst hrun
      have hc : (j.AddNamedPorts names).portCount = j.portCount + names.length := by
        rw [AuroraJob.AddNamedPorts_portCount]
        exact wrapInt_of_inRange _ (by omega) h1
      refine ⟨by omega, ?_, ?_, ?_⟩
      · intro n hn
        cases hn
      · intro ns hn
        cases hn
        exact hc
      · intro _ hne
        exact absurd rfl (hne names)
    · have hp' : ∀ num, c ≠ .AddPorts num := fun num h => hp ⟨num, h⟩
      have hn' : ∀ names, c ≠ .AddNamedPorts names := fun names h => hn ⟨names, h⟩
      have hc := Call.run_portCount c j j' hrun hp' hn'
      refine ⟨by omega, ?_, ?_, fun _ _ => hc⟩
      · intro n h
        exact absurd h (hp' n)
      · intro ns h
        exact absurd h (hn' ns)

/-- C5 on a fresh builder: `AddPorts(3)` does not lower the counter. -/
theorem C5_port_counter_never_decreases_without_overflow_witness :
    ((Call.AddPorts 3).run NewJob = some (NewJob.AddPorts 3) ∧ minInt ≤ NewJob.portCount) ∧
    NewJob.portCount ≤ (NewJob.AddPorts 3).portCount :=
  ⟨⟨rfl, by decide⟩,
    (C5_port_counter_never_decreases_without_overflow (.AddPorts 3) NewJob (NewJob.AddPorts 3) rfl
      (by decide)
      (fun num h => by cases h; decide)
      (fun names h => by cases h)).1⟩

/-- C5 as stated fails for a negative count: `NewJob().AddPorts(-1)` lowers the counter from
0 to -1 (and appends nothing). -/
theorem C5_counterexample_negative_count :
    (NewJob.AddPorts (-1)).portCount = -1 ∧
    ¬ (NewJob.portCount ≤ (NewJob.AddPorts (-1)).portCount) := by
  decide

/-! ## C6: anonymous port names are not reused -/

/-- C6 (amended): for every chain of mutator calls applied to a fresh builder, `AddPorts`
and `AddNamedPorts` calls interleaved with any others, in which every `AddPorts` count is
non-negative and the ports asked for in total (the counts and the numbers of names) do not
exceed the largest `int`, and every state the chain ends in: the names of the entries that
the `AddPorts` calls appended are pairwise distinct, those entries lie in the resource list
in the order in which they were appended, and the indices their names carry are strictly
increasing in that order. -/
theorem C6_anonymous_port_names_never_reused (calls : List Call) (j : AuroraJob)
    (h : runAll calls NewJob = some j)
    (hnn : ∀ num, Call.AddPorts num ∈ calls → 0 ≤ num)
    (hhi : portsRequested calls ≤ maxInt) :
    ((anonymousPorts calls NewJob).map j.portName).Pairwise (fun a b => a ≠ b) ∧
    (anonymousPorts calls NewJob).Sublist j.Resources ∧
    ∃ idx : List Int, idx.Pairwise (fun a b => a < b) ∧
      (anonymousPorts calls NewJob).map j.portName =
        idx.map (fun i => some (portNameStem ++ strconv.Itoa i)) := by
  obtain ⟨_, _, _, hsub, idx, hidx, _, hnames⟩ :=
    runAll_anonymousPorts calls NewJob j AuroraJob.Shaped_NewJob h hnn (by decide)
      (by simpa [NewJob] using hhi)
  have hnames' : (anonymousPorts calls NewJob).map j.portName =
      idx.map (fun i => some (portNameStem ++ strconv.Itoa i)) := by
    rw [hnames, List.map_map]
    rfl
  refine ⟨?_, hsub.trans (List.drop_sublist _ _), idx, hidx, hnames'⟩
  rw [hnames', List.pairwise_map]
  refine hidx.imp ?_
  intro a b hab heq
  have := portName_of_index_injective a b heq
  omega

/-- C6 on a chain that interleaves anonymous and named ports. -/
theorem C6_anonymous_port_names_never_reused_witness :
    runAll [.AddPorts 2, .AddNamedPorts ["a"], .AddPorts 1] NewJob =
      some (((NewJob.AddPorts 2).AddNamedPorts ["a"]).AddPorts 1) ∧
    ((anonymousPorts [.AddPorts 2, .AddNamedPorts ["a"], .AddPorts 1] NewJob).map
      (((NewJob.AddPorts 2).AddNamedPorts ["a"]).AddPorts 1).portName).Pairwise
        (fun a b => a ≠ b) :=
  ⟨rfl, (C6_anonymous_port_names_never_reused [.AddPorts 2, .AddNamedPorts ["a"], .AddPorts 1]
    _ rfl (by
      intro num hm
      simp only [List.mem_cons, Call.AddPorts.injEq, List.mem_singleton, reduceCtorEq,
        false_or, List.not_mem_nil, or_false] at hm
      rcases hm with rfl | rfl <;> decide) (by decide)).1⟩

/-- C6 as stated fails when the counter overflows: in the chain `AddPorts(1)`,
`AddPorts(9223372036854775807)`, `AddPorts(1)`, all counts non-negative, the second call
wraps the counter to the smallest `int` and appends nothing, so the anonymous ports are
numbered 0 and then -9223372036854775808: the indices are not increasing. -/
theorem C6_counterexample_indices_not_increasing :
    (0 : Int) ≤ 1 ∧ (0 : Int) ≤ 9223372036854775807 ∧
    (runAll [.AddPorts 1, .AddPorts 9223372036854775807, .AddPorts 1] NewJob).map
        (fun j =>
          (anonymousPorts [.AddPorts 1, .AddPorts 9223372036854775807, .AddPorts 1] NewJob).map
            j.portName) =
      some [some (portNameStem ++ strconv.Itoa 0),
        some (portNameStem ++ strconv.Itoa (-9223372036854775808))] ∧
    ¬ ((0 : Int) < -9223372036854775808) := by
  decide

/-! ## C7: the job key is last-write-wins -/

/-- C7: for every chain of mutator calls applied to a fresh builder and every state the
chain ends in, `JobKey()` returns a pointer to a key whose role, environment and name are
the arguments of the most recent `Role`, `Environment` and `Name` call of the chain (the
empty string where the chain has none); every chain without a `Tier` call does end in a
state; and a call of any mutator leaves unchanged every key field whose setter it is not. -/
theorem C7_JobKey_last_write_wins (calls : List Call) :
    (∀ j, runAll calls NewJob = some j →
      ∃ a, j.JobKey = some a ∧
        j.heap.jobKeys[a]? = some
          { Role := lastRole calls, Environment := lastEnvironment calls, Name := lastName calls }) ∧
    ((∀ tier, Call.Tier tier ∉ calls) → ∃ j, runAll calls NewJob = some j) ∧
    (∀ (c : Call) (j j' : AuroraJob) (k : aurora.JobKey), c.run j = some j' → j.key = some k →
      ∃ k', j'.key = some k' ∧
        ((∀ role, c ≠ .Role role) → k'.Role = k.Role) ∧
        ((∀ env, c ≠ .Environment env) → k'.Environment = k.Environment) ∧
        ((∀ name, c ≠ .Name name) → k'.Name = k.Name)) := by
  refine ⟨?_, runAll_isSome calls NewJob AuroraJob.Shaped_NewJob, ?_⟩
  · intro j h
    have hkey := runAll_key calls NewJob j {} NewJob_key h
    have hs := runAll_shaped calls NewJob j AuroraJob.Shaped_NewJob h
    refine ⟨0, hs.key, ?_⟩
    simpa [AuroraJob.key, AuroraJob.JobKey, load, hs.key, lastRole, lastEnvironment, lastName]
      using hkey
  · intro c j j' k h hk
    obtain ⟨hR, hE, hN, _, hO⟩ := Call.run_key_owner c j j' k h hk
    by_cases h1 : ∃ role, c = .Role role
    · obtain ⟨role, rfl⟩ := h1
      exact ⟨_, (hR role rfl).1, fun hne => absurd rfl (hne role), fun _ => rfl, fun _ => rfl⟩
    · by_cases h2 : ∃ env, c = .Environment env
      · obtain ⟨env, rfl⟩ := h2
        exact ⟨_, hE env rfl, fun _ => rfl, fun hne => absurd rfl (hne env), fun _ => rfl⟩
      · by_cases h3 : ∃ name, c = .Name name
        · obtain ⟨name, rfl⟩ := h3
          exact ⟨_, hN name rfl, fun _ => rfl, fun _ => rfl, fun hne => absurd rfl (hne name)⟩
        · exact ⟨k, hO (fun r hc => h1 ⟨r, hc⟩) (fun e hc => h2 ⟨e, hc⟩) (fun n hc => h3 ⟨n, hc⟩),
            fun _ => rfl, fun _ => rfl, fun _ => rfl⟩

/-- C7 on a chain that sets the environment twice. -/
theorem C7_JobKey_last_write_wins_witness :
    runAll [.Environment "prod", .Role "www", .AddPorts 2, .Environment "devel", .Name "hello"]
        NewJob =
      some { NewJob.AddPorts 2 with
        heap.jobKeys := [{ Role := "www", Environment := "devel", Name := "hello" }]
        jobConfig.Owner := some { User := "www" }
        jobConfig.TaskConfig.Owner := some { User := "www" } } ∧
    ∃ a, ({ NewJob.AddPorts 2 with
        heap.jobKeys := [{ Role := "www", Environment := "devel", Name := "hello" }]
        jobConfig.Owner := some { User := "www" }
        jobConfig.TaskConfig.Owner := some { User := "www" } } : AuroraJob).JobKey = some a ∧
      ({ NewJob.AddPorts 2 with
        heap.jobKeys := [{ Role := "www", Environment := "devel", Name := "hello" }]
        jobConfig.Owner := some { User := "www" }
        jobConfig.TaskConfig.Owner := some { User := "www" } } : AuroraJob).heap.jobKeys[a]? =
        some { Role := "www", Environment := "devel", Name := "hello" } :=
  ⟨by decide,
    (C7_JobKey_last_write_wins [.Environment "prod", .Role "www", .AddPorts 2,
      .Environment "devel", .Name "hello"]).1 _ (by decide)⟩

/-! ## C8: the two owner fields -/

/-- C8: in every state that a chain of mutator calls reaches from `NewJob()`, the job-level
owner and the task-level owner are equal: both absent when the chain has no `Role` call,
both with user equal to the key's role when it has one; and in every such state `Role(x)`
completes and sets the key's role, the job-level owner's user and the task-level owner's
user to `x`. -/
theorem C8_owner_fields_never_diverge (calls : List Call) (j : AuroraJob)
    (h : runAll calls NewJob = some j) :
    j.jobConfig.Owner = j.jobConfig.TaskConfig.Owner ∧
    ((∀ role, Call.Role role ∉ calls) →
      j.jobConfig.Owner = none ∧ j.jobConfig.TaskConfig.Owner = none) ∧
    ((∃ role, Call.Role role ∈ calls) →
      ∃ k, j.key = some k ∧ j.jobConfig.Owner = some { User := k.Role } ∧
        j.jobConfig.TaskConfig.Owner = some { User := k.Role }) ∧
    (∀ x, ∃ j' k', j.Role x = some j' ∧ j'.key = some k' ∧ k'.Role = x ∧
      j'.jobConfig.Owner = some { User := x } ∧
      j'.jobConfig.TaskConfig.Owner = some { User := x }) := by
  obtain ⟨i1, ⟨k, hk, i2⟩, i3, i4⟩ :=
    runAll_owner calls NewJob j {} rfl h rfl (Or.inl rfl)
  refine ⟨i1, ?_, ?_, ?_⟩
  · intro hno
    have := i3 hno
    exact ⟨this, i1 ▸ this⟩
  · intro hex
    have hne := i4 (Or.inr hex)
    rcases i2 with i2 | i2
    · exact absurd i2 hne
    · exact ⟨k, hk, i2, i1 ▸ i2⟩
  · intro x
    have hs := runAll_shaped calls NewJob j AuroraJob.Shaped_NewJob h
    obtain ⟨j', hj'⟩ := Call.run_isSome (.Role x) j hs (fun _ hc => by cases hc)
    obtain ⟨h1, h2, h3⟩ := (Call.run_key_owner (.Role x) j j' k hj' hk).1 x rfl
    exact ⟨j', _, hj', h1, rfl, h2, h3⟩

/-- C8 on the chain `Role("www")`, `Name("hello")`. -/
theorem C8_owner_fields_never_diverge_witness :
    runAll [.Role "www", .Name "hello"] NewJob =
      some { NewJob with
        heap.jobKeys := [{ Role := "www", Name := "hello" }]
        jobConfig.Owner := some { User := "www" }
        jobConfig.TaskConfig.Owner := some { User := "www" } } ∧
    ({ NewJob with
        heap.jobKeys := [{ Role := "www", Name := "hello" }]
        jobConfig.Owner := some { User := "www" }
        jobConfig.TaskConfig.Owner := some { User := "www" } } : AuroraJob).jobConfig.Owner =
      ({ NewJob with
        heap.jobKeys := [{ Role := "www", Name := "hello" }]
        jobConfig.Owner := some { User := "www" }
        jobConfig.TaskConfig.Owner := some { User := "www" } } :
          AuroraJob).jobConfig.TaskConfig.Owner :=
  ⟨by decide, (C8_owner_fields_never_diverge [.Role "www", .Name "hello"] _ (by decide)).1⟩

/-! ## C9: constraints -/

/-- C9: `AddValueConstraint(name, negated, values...)` appends, at the end of the
constraint list, one constraint named `name` with the value variant `(negated, values)`
and no limit variant, and changes nothing else; `AddLimitConstraint(name, limit)` appends
one constraint named `name` with the limit variant `limit` and no value variant, and
changes nothing else; and in every state that a chain of mutator calls reaches from
`NewJob()` every constraint of the list has exactly one of its two variants populated. -/
theorem C9_constraints_have_exactly_one_variant :
    (∀ (j : AuroraJob) (name : String) (negated : Bool) (values : List String),
      j.AddValueConstraint name negated values =
        { j with
          jobConfig.TaskConfig.Constraints := j.Constraints ++
            [{ Name := name
               Constraint := some
                 { Value := some { Negated := negated, Values := values }, Limit := none } }] }) ∧
    (∀ (j : AuroraJob) (name : String) (limit : Int),
      j.AddLimitConstraint name limit =
        { j with
          jobConfig.TaskConfig.Constraints := j.Constraints ++
            [{ Name := name
               Constraint := some { Value := none, Limit := some { Limit := limit } } }] }) ∧
    (∀ (calls : List Call) (j : AuroraJob), runAll calls NewJob = some j →
      ∀ x ∈ j.Constraints, ∃ tc, x.Constraint = some tc ∧
        ((tc.Value ≠ none ∧ tc.Limit = none) ∨ (tc.Value = none ∧ tc.Limit ≠ none))) := by
  refine ⟨fun _ _ _ _ => rfl, fun _ _ _ => rfl, fun calls j h => ?_⟩
  exact runAll_constraints calls NewJob j (fun x hx => by simp [NewJob, AuroraJob.Constraints] at hx) h

/-- C9 on a chain with one constraint of each kind. -/
theorem C9_constraints_have_exactly_one_variant_witness :
    runAll [.AddValueConstraint "zone" true ["west"], .AddLimitConstraint "host" 2] NewJob =
      some ((NewJob.AddValueConstraint "zone" true ["west"]).AddLimitConstraint "host" 2) ∧
    ∀ x ∈ ((NewJob.AddValueConstraint "zone" true ["west"]).AddLimitConstraint "host"
        2).Constraints,
      ∃ tc, x.Constraint = some tc ∧
        ((tc.Value ≠ none ∧ tc.Limit = none) ∨ (tc.Value = none ∧ tc.Limit ≠ none)) :=
  ⟨rfl, C9_constraints_have_exactly_one_variant.2.2
    [.AddValueConstraint "zone" true ["west"], .AddLimitConstraint "host" 2] _ rfl⟩

/-! ## C10: the dedicated constraint -/

/-- C10: for every builder state and all strings `role` and `name`,
`AddDedicatedConstraint(role, name)` yields the same builder state as
`AddValueConstraint("dedicated", false, role + "/" + name)`: the state with one value
constraint appended, on attribute `dedicated`, not negated, with the single value
`role/name`, and nothing else changed. -/
theorem C10_AddDedicatedConstraint_is_a_value_constraint (j : AuroraJob) (role name : String) :
    j.AddDedicatedConstraint role name =
      j.AddValueConstraint "dedicated" false [role ++ "/" ++ name] ∧
    j.AddDedicatedConstraint role name =
      { j with
        jobConfig.TaskConfig.Constraints := j.Constraints ++
          [{ Name := "dedicated"
             Constraint := some
               { Value := some { Negated := false, Values := [role ++ "/" ++ name] }
                 Limit := none } }] } :=
  ⟨rfl, rfl⟩

/-! ## C11: the executor setters -/

/-- C11: for every builder state, executor descriptor absent or present, and all strings
`n` and `d`, `ExecutorName(n)` followed by `ExecutorData(d)` yields the same builder state
as `ExecutorData(d)` followed by `ExecutorName(n)`: the state whose executor descriptor is
present with name `n` and data `d`.  On a fresh builder the descriptor is absent, and after
a single setter it is present with the other field empty. -/
theorem C11_executor_setters_commute (j : AuroraJob) (n d : String) :
    (j.ExecutorName n).ExecutorData d = (j.ExecutorData d).ExecutorName n ∧
    ((j.ExecutorName n).ExecutorData d).jobConfig.TaskConfig.ExecutorConfig =
      some { Name := n, Data := d } ∧
    (j.ExecutorName n).ExecutorData d =
      { j with jobConfig.TaskConfig.ExecutorConfig := some { Name := n, Data := d } } ∧
    NewJob.jobConfig.TaskConfig.ExecutorConfig = none ∧
    (NewJob.ExecutorName n).jobConfig.TaskConfig.ExecutorConfig = some { Name := n, Data := "" } ∧
    (NewJob.ExecutorData d).jobConfig.TaskConfig.ExecutorConfig =
      some { Name := "", Data := d } := by
  refine ⟨?_, ?_, ?_, rfl, rfl, rfl⟩ <;>
    simp [AuroraJob.ExecutorName_eq, AuroraJob.ExecutorData_eq]

/-! ## C12: the fresh builder -/

/-- The flag tells the two empty slices apart: the slices of a zero-valued task
configuration are `nil`. -/
theorem zero_TaskConfig_slices_are_nil :
    isNilSlice ({} : aurora.TaskConfig).MesosFetcherUrisMade
      ({} : aurora.TaskConfig).MesosFetcherUris = true ∧
    isNilSlice ({} : aurora.TaskConfig).MetadataMade ({} : aurora.TaskConfig).Metadata = true ∧
    isNilSlice ({} : aurora.TaskConfig).ConstraintsMade
      ({} : aurora.TaskConfig).Constraints = true := by
  decide

/-- C12: `NewJob()` returns a builder whose task resource list is exactly a cpu, a ram and
a disk entry in that order, each with only its own kind set and reading zero; no entry is
a named port; the port counter is 0; the fetch, label and constraint lists are empty and
not `nil`; role, environment and name are empty; there is no executor descriptor; and the
container is the default Mesos one. -/
theorem C12_NewJob_is_fully_initialised :
    NewJob.Resources =
      [{ NumCpus := some 0 }, { RamMb := some 0 }, { DiskMb := some 1 }] ∧
    NewJob.Resources.map NewJob.numCpus = [some ⟨0⟩, none, none] ∧
    NewJob.Resources.map NewJob.ramMb = [none, some 0, none] ∧
    NewJob.Resources.map NewJob.diskMb = [none, none, some 0] ∧
    NewJob.Resources.map NewJob.portName = [none, none, none] ∧
    (∀ r ∈ NewJob.Resources, r.NamedPort = none) ∧
    NewJob.portCount = 0 ∧
    NewJob.TaskConfig.MesosFetcherUris = [] ∧
    isNilSlice NewJob.TaskConfig.MesosFetcherUrisMade NewJob.TaskConfig.MesosFetcherUris =
      false ∧
    NewJob.TaskConfig.Metadata = [] ∧
    isNilSlice NewJob.TaskConfig.MetadataMade NewJob.TaskConfig.Metadata = false ∧
    NewJob.TaskConfig.Constraints = [] ∧
    isNilSlice NewJob.TaskConfig.ConstraintsMade NewJob.TaskConfig.Constraints = false ∧
    NewJob.key = some { Role := "", Environment := "", Name := "" } ∧
    NewJob.TaskConfig.ExecutorConfig = none ∧
    NewJob.TaskConfig.Container = some NewMesosContainer.Build ∧
    NewMesosContainer.Build = aurora.Container.Mesos none := by
  decide

/-! ## C13: the resource table -/

/-- C13: in every state that a chain of mutator calls reaches from `NewJob()`, the task's
resource list is the cpu entry, the ram entry and the disk entry that `NewJob` built, in
that order and each with only its own kind populated, followed by named-port entries only;
the entries that `CPU`, `RAM` and `Disk` look up in the resource map are those first three
list entries; and each of the three carries a quantity. -/
theorem C13_resource_table_invariant (calls : List Call) (j : AuroraJob)
    (h : runAll calls NewJob = some j) :
    ∃ ports, j.Resources =
        [{ NumCpus := some 0 }, { RamMb := some 0 }, { DiskMb := some 1 }] ++ ports ∧
      (∀ r ∈ ports,
        r.NumCpus = none ∧ r.RamMb = none ∧ r.DiskMb = none ∧ r.NamedPort ≠ none) ∧
      j.resources.lookup "cpu" = j.Resources[0]? ∧
      j.resources.lookup "ram" = j.Resources[1]? ∧
      j.resources.lookup "disk" = j.Resources[2]? ∧
      (∃ cpus, (j.Resources[0]?).bind j.numCpus = some cpus) ∧
      (∃ ram, (j.Resources[1]?).bind j.ramMb = some ram) ∧
      (∃ disk, (j.Resources[2]?).bind j.diskMb = some disk) := by
  have hs := runAll_shaped calls NewJob j AuroraJob.Shaped_NewJob h
  obtain ⟨ports, hres, hports⟩ := runAll_resources calls NewJob j h
  have hres' : j.Resources =
      [{ NumCpus := some 0 }, { RamMb := some 0 }, { DiskMb := some 1 }] ++ ports := hres
  obtain ⟨f, hf⟩ : ∃ f, j.heap.float64s = [f] := by
    match hc : j.heap.float64s, hs.float64s with
    | [f], _ => exact ⟨f, rfl⟩
  obtain ⟨a, b, hab⟩ : ∃ a b, j.heap.int64s = [a, b] := by
    match hc : j.heap.int64s, hs.int64s with
    | [a, b], _ => exact ⟨a, b, rfl⟩
  refine ⟨ports, hres', hports, ?_, ?_, ?_, ⟨f, ?_⟩, ⟨a, ?_⟩, ⟨b, ?_⟩⟩
  · rw [hs.resources, hres']; simp [NewJob, List.lookup]
  · rw [hs.resources, hres']; simp [NewJob, List.lookup]
  · rw [hs.resources, hres']; simp [NewJob, List.lookup]
  · rw [hres']; simp [AuroraJob.numCpus, load, hf]
  · rw [hres']; simp [AuroraJob.ramMb, load, hab]
  · rw [hres']; simp [AuroraJob.diskMb, load, hab]

/-- C13 on a chain that adds a named and an anonymous port. -/
theorem C13_resource_table_invariant_witness :
    runAll [.AddNamedPorts ["http"], .AddLabel "k" "v", .AddPorts 1] NewJob =
      some (((NewJob.AddNamedPorts ["http"]).AddLabel "k" "v").AddPorts 1) ∧
    ∃ ports, (((NewJob.AddNamedPorts ["http"]).AddLabel "k" "v").AddPorts 1).Resources =
      [{ NumCpus := some 0 }, { RamMb := some 0 }, { DiskMb := some 1 }] ++ ports := by
  refine ⟨rfl, ?_⟩
  obtain ⟨ports, hres, _⟩ := C13_resource_table_invariant
    [.AddNamedPorts ["http"], .AddLabel "k" "v", .AddPorts 1] _ rfl
  exact ⟨ports, hres⟩

/-! ## C14: the resource setters -/

/-- C14: in every state that a chain of mutator calls reaches from `NewJob()`, and for
every integer value, zero and negative ones included, `RAM(v)` completes and makes the ram
entry of the resource list read `v`, `Disk(v)` does so for the disk entry and `CPU(c)` for
the cpu entry; each leaves the resource list, the port counter, the other two base
quantities and every port name as they were; and `RAM(v1)` followed by `RAM(v2)` leaves the
ram entry reading `v2`. -/
theorem C14_resource_setters_overwrite_one_entry (calls : List Call) (j : AuroraJob)
    (h : runAll calls NewJob = some j) :
    (∀ ram : Int, ∃ j', j.RAM ram = some j' ∧
      (j'.Resources[1]?).bind j'.ramMb = some ram ∧
      j'.Resources = j.Resources ∧ j'.portCount = j.portCount ∧
      (j'.Resources[0]?).bind j'.numCpus = (j.Resources[0]?).bind j.numCpus ∧
      (j'.Resources[2]?).bind j'.diskMb = (j.Resources[2]?).bind j.diskMb ∧
      j'.Resources.map j'.portName = j.Resources.map j.portName) ∧
    (∀ disk : Int, ∃ j', j.Disk disk = some j' ∧
      (j'.Resources[2]?).bind j'.diskMb = some disk ∧
      j'.Resources = j.Resources ∧ j'.portCount = j.portCount ∧
      (j'.Resources[0]?).bind j'.numCpus = (j.Resources[0]?).bind j.numCpus ∧
      (j'.Resources[1]?).bind j'.ramMb = (j.Resources[1]?).bind j.ramMb ∧
      j'.Resources.map j'.portName = j.Resources.map j.portName) ∧
    (∀ cpus : Float64, ∃ j', j.CPU cpus = some j' ∧
      (j'.Resources[0]?).bind j'.numCpus = some cpus ∧
      j'.Resources = j.Resources ∧ j'.portCount = j.portCount ∧
      (j'.Resources[1]?).bind j'.ramMb = (j.Resources[1]?).bind j.ramMb ∧
      (j'.Resources[2]?).bind j'.diskMb = (j.Resources[2]?).bind j.diskMb ∧
      j'.Resources.map j'.portName = j.Resources.map j.portName) ∧
    (∀ v1 v2 : Int, ∃ j1 j2, j.RAM v1 = some j1 ∧ j1.RAM v2 = some j2 ∧
      (j2.Resources[1]?).bind j2.ramMb = some v2) := by
  have hs := runAll_shaped calls NewJob j AuroraJob.Shaped_NewJob h
  obtain ⟨ports, hres, _⟩ := runAll_resources calls NewJob j h
  have hres' : j.jobConfig.TaskConfig.Resources =
      [{ NumCpus := some 0 }, { RamMb := some 0 }, { DiskMb := some 1 }] ++ ports := hres
  obtain ⟨hcpu, hram, hdisk⟩ := AuroraJob.Shaped.setters j hs
  obtain ⟨f, hf⟩ : ∃ f, j.heap.float64s = [f] := by
    match hc : j.heap.float64s, hs.float64s with
    | [f], _ => exact ⟨f, rfl⟩
  obtain ⟨a, b, hab⟩ : ∃ a b, j.heap.int64s = [a, b] := by
    match hc : j.heap.int64s, hs.int64s with
    | [a, b], _ => exact ⟨a, b, rfl⟩
  refine ⟨fun ram => ⟨_, hram ram, ?_⟩, fun disk => ⟨_, hdisk disk, ?_⟩,
    fun cpus => ⟨_, hcpu cpus, ?_⟩, fun v1 v2 => ?_⟩
  · simp [AuroraJob.Resources, AuroraJob.ramMb, AuroraJob.diskMb, AuroraJob.numCpus,
      AuroraJob.portName, load, hres', hab, hf]
  · simp [AuroraJob.Resources, AuroraJob.ramMb, AuroraJob.diskMb, AuroraJob.numCpus,
      AuroraJob.portName, load, hres', hab, hf]
  · simp [AuroraJob.Resources, AuroraJob.ramMb, AuroraJob.diskMb, AuroraJob.numCpus,
      AuroraJob.portName, load, hres', hab, hf]
  · have hs1 := Call.run_shaped (.RAM v1) j _ hs (hram v1)
    obtain ⟨_, hram1, _⟩ := AuroraJob.Shaped.setters _ hs1
    refine ⟨_, _, hram v1, hram1 v2, ?_⟩
    simp [AuroraJob.Resources, AuroraJob.ramMb, load, hres', hab]

/-- C14 on a builder with one port: `RAM(-5)` makes the ram entry read -5. -/
theorem C14_resource_setters_overwrite_one_entry_witness :
    runAll [.AddPorts 1] NewJob = some (NewJob.AddPorts 1) ∧
    ∃ j', (NewJob.AddPorts 1).RAM (-5) = some j' ∧ (j'.Resources[1]?).bind j'.ramMb = some (-5) := by
  refine ⟨rfl, ?_⟩
  obtain ⟨j', h1, h2, _⟩ :=
    (C14_resource_setters_overwrite_one_entry [.AddPorts 1] _ rfl).1 (-5)
  exact ⟨j', h1, h2⟩

/-! ## C15: fetch directives -/

/-- C15: for every builder state, all booleans `extract` and `cache` and every list of
values, `AddURIs(extract, cache, values...)` keeps the directives already in the fetch list
in place, and appends one directive per value, in call order, the `i`-th with the `i`-th
value, extract flag `extract` and cache flag `cache` (equal values give separate entries);
a directive that was readable before reads the same afterwards.  On a fresh builder
`AddURIs(true, false, "u1", "u2")` gives the list `(u1, true, false)`, `(u2, true, false)`. -/
theorem C15_AddURIs_appends_in_call_order (j : AuroraJob) (extract cache : Bool)
    (values : List String) :
    (j.AddURIs extract cache values).TaskConfig.MesosFetcherUris.take
      j.TaskConfig.MesosFetcherUris.length = j.TaskConfig.MesosFetcherUris ∧
    ((j.AddURIs extract cache values).TaskConfig.MesosFetcherUris.drop
        j.TaskConfig.MesosFetcherUris.length).map
      (j.AddURIs extract cache values).fetchDirective =
      values.map (fun value => (value, some extract, some cache)) ∧
    (∀ u ∈ j.TaskConfig.MesosFetcherUris, ∀ e c,
      j.fetchDirective u = (u.Value, some e, some c) →
        (j.AddURIs extract cache values).fetchDirective u = (u.Value, some e, some c)) ∧
    (NewJob.AddURIs true false ["u1", "u2"]).TaskConfig.MesosFetcherUris.map
      (NewJob.AddURIs true false ["u1", "u2"]).fetchDirective =
      [("u1", some true, some false), ("u2", some true, some false)] := by
  refine ⟨?_, ?_, ?_, by decide⟩
  · rw [AuroraJob.AddURIs_eq]
    simp [AuroraJob.TaskConfig]
  · rw [AuroraJob.AddURIs_eq]
    simp [AuroraJob.TaskConfig, AuroraJob.fetchDirective, load, Function.comp_def,
      List.getElem_append_right]
  · intro u _ e c hu
    rw [AuroraJob.AddURIs_eq]
    simp only [AuroraJob.fetchDirective, Prod.mk.injEq, true_and] at hu ⊢
    exact ⟨load_append_left _ _ _ _ hu.1, load_append_left _ _ _ _ hu.2⟩

/-- C15 on a builder that already holds a directive for the same value with other flags:
the older directive still reads `(u0, true, true)`. -/
theorem C15_AddURIs_appends_in_call_order_witness :
    (NewJob.AddURIs true true ["u0"]).fetchDirective
        { Value := "u0", Extract := some 0, Cache := some 1 } = ("u0", some true, some true) ∧
    ((NewJob.AddURIs true true ["u0"]).AddURIs false false ["u0"]).fetchDirective
        { Value := "u0", Extract := some 0, Cache := some 1 } = ("u0", some true, some true) :=
  ⟨by decide,
    (C15_AddURIs_appends_in_call_order (NewJob.AddURIs true true ["u0"]) false false
      ["u0"]).2.2.1 { Value := "u0", Extract := some 0, Cache := some 1 } (by decide) true true
      (by decide)⟩

/-! ## C16: the container -/

/-- C16: for every builder state and all container builders `c1` and `c2`, `Container(c1)`
followed by `Container(c2)` yields the same state as `Container(c2)` alone, with the task's
container descriptor equal to `c2.Build()`; and in every state that a chain of mutator
calls reaches from `NewJob()` the task holds one container descriptor, the one built by the
last `Container` call of the chain, which is the default Mesos descriptor when the chain
has no `Container` call. -/
theorem C16_Container_last_write_wins (calls : List Call) :
    (∀ (j : AuroraJob) (c1 c2 : Container),
      (j.Container c1).Container c2 = j.Container c2 ∧
        ((j.Container c1).Container c2).TaskConfig.Container = some c2.Build) ∧
    (∀ j, runAll calls NewJob = some j → j.TaskConfig.Container = some (lastContainer calls)) ∧
    ((∀ container, Call.Container container ∉ calls) →
      lastContainer calls = NewMesosContainer.Build) := by
  refine ⟨fun j c1 c2 => ⟨rfl, rfl⟩, fun j h => ?_, ?_⟩
  · exact runAll_container calls NewJob j _ rfl h
  · intro hno
    unfold lastContainer
    generalize NewMesosContainer.Build = d
    induction calls generalizing d with
    | nil => rfl
    | cons c cs ih =>
      have ih' := ih (fun x hm => hno x (List.mem_cons_of_mem _ hm))
      cases c with
      | Container container => exact absurd (List.mem_cons_self _ _) (hno container)
      | _ => simpa using ih' d

/-- C16 on a chain with two `Container` calls. -/
theorem C16_Container_last_write_wins_witness :
    runAll [.Container ⟨.Docker "nginx"⟩, .AddLabel "k" "v", .Container ⟨.Mesos (some "img")⟩]
        NewJob =
      some (((NewJob.Container ⟨.Docker "nginx"⟩).AddLabel "k" "v").Container
        ⟨.Mesos (some "img")⟩) ∧
    (((NewJob.Container ⟨.Docker "nginx"⟩).AddLabel "k" "v").Container
        ⟨.Mesos (some "img")⟩).TaskConfig.Container = some (.Mesos (some "img")) :=
  ⟨rfl, (C16_Container_last_write_wins
    [.Container ⟨.Docker "nginx"⟩, .AddLabel "k" "v", .Container ⟨.Mesos (some "img")⟩]).2.1 _ rfl⟩

/-! ## C17: labels -/

/-- C17: for every builder state and all strings `key` and `value`, `AddLabel(key, value)`
changes nothing but the label list, which gets the one pair `(key, value)` appended at its
end, the key stored as given; the labels already there stay in place; and a second
`AddLabel` with the same pair appends it again. -/
theorem C17_AddLabel_appends_one_pair (j : AuroraJob) (key value : String) :
    j.AddLabel key value =
      { j with
        jobConfig.TaskConfig.Metadata :=
          j.jobConfig.TaskConfig.Metadata ++ [{ Key := key, Value := value }] } ∧
    (j.AddLabel key value).jobConfig.TaskConfig.Metadata.length =
      j.jobConfig.TaskConfig.Metadata.length + 1 ∧
    (j.AddLabel key value).jobConfig.TaskConfig.Metadata.take
      j.jobConfig.TaskConfig.Metadata.length = j.jobConfig.TaskConfig.Metadata ∧
    (j.AddLabel key value).jobConfig.TaskConfig.Metadata.getLast? =
      some { Key := key, Value := value } ∧
    ((j.AddLabel key value).AddLabel key value).jobConfig.TaskConfig.Metadata =
      j.jobConfig.TaskConfig.Metadata ++
        [{ Key := key, Value := value }, { Key := key, Value := value }] := by
  refine ⟨rfl, ?_, ?_, ?_, ?_⟩ <;> simp [AuroraJob.AddLabel]

/-! ## C18: the counter and the resource list -/

/-- C18 (amended): in every state that a chain of mutator calls reaches from `NewJob()`,
where every `AddPorts` count of the chain is non-negative and the ports asked for in total
(the counts and the numbers of names) do not exceed the largest `int`, the resource list
has exactly `3 + portCount` entries and the number of its named-port entries is the port
counter. -/
theorem C18_counter_counts_port_entries (calls : List Call) (j : AuroraJob)
    (h : runAll calls NewJob = some j)
    (hnn : ∀ num, Call.AddPorts num ∈ calls → 0 ≤ num)
    (hhi : portsRequested calls ≤ maxInt) :
    (j.Resources.length : Int) = 3 + j.portCount ∧
    ((j.Resources.filter (fun r => r.NamedPort.isSome)).length : Int) = j.portCount := by
  obtain ⟨h1, h2⟩ := runAll_resources_length calls NewJob j h hnn (by decide)
    (by simpa [NewJob] using hhi)
  obtain ⟨ports, hres, hports⟩ := runAll_resources calls NewJob j h
  have hn3 : NewJob.Resources.length = 3 := rfl
  have hn0 : NewJob.portCount = 0 := rfl
  have hlen : (j.Resources.length : Int) = 3 + j.portCount := by
    rw [h1, h2, hn3, hn0]
    omega
  refine ⟨hlen, ?_⟩
  have hf : j.Resources.filter (fun r => r.NamedPort.isSome) = ports := by
    rw [hres, List.filter_append]
    have : List.filter (fun r => r.NamedPort.isSome) ports = ports := by
      rw [List.filter_eq_self]
      intro r hr
      have := (hports r hr).2.2.2
      cases hn : r.NamedPort with
      | none => exact absurd hn this
      | some a => rfl
    rw [this]
    simp [NewJob, AuroraJob.Resources]
  rw [hf]
  have : j.Resources.length = 3 + ports.length := by
    rw [hres]
    simp [NewJob, AuroraJob.Resources]
    omega
  omega

/-- C18 on a chain with two named ports and one anonymous port. -/
theorem C18_counter_counts_port_entries_witness :
    runAll [.AddNamedPorts ["a", "b"], .CPU ⟨0⟩, .AddPorts 1] NewJob =
      some ((NewJob.AddNamedPorts ["a", "b"]).AddPorts 1) ∧
    (((NewJob.AddNamedPorts ["a", "b"]).AddPorts 1).Resources.length : Int) =
      3 + ((NewJob.AddNamedPorts ["a", "b"]).AddPorts 1).portCount :=
  ⟨by decide,
    (C18_counter_counts_port_entries [.AddNamedPorts ["a", "b"], .CPU ⟨0⟩, .AddPorts 1] _
      (by decide) (by
        intro num hm
        simp only [List.mem_cons, reduceCtorEq, Call.AddPorts.injEq, List.mem_singleton,
          false_or, List.not_mem_nil, or_false] at hm
        subst hm
        decide) (by decide)).1⟩

/-- C18 as stated fails when the counter overflows: after `AddPorts(1)` and
`AddPorts(9223372036854775807)`, both non-negative, the counter is -9223372036854775808
while the resource list has 4 entries, one of them a named port. -/
theorem C18_counterexample_counter_overflow :
    (0 : Int) ≤ 1 ∧ (0 : Int) ≤ 9223372036854775807 ∧
    (runAll [.AddPorts 1, .AddPorts 9223372036854775807] NewJob).map
        (fun j => (j.portCount, j.Resources.length,
          (j.Resources.filter (fun r => r.NamedPort.isSome)).length)) =
      some (-9223372036854775808, 4, 1) ∧
    ((4 : Nat) : Int) ≠ 3 + -9223372036854775808 := by
  decide

/-! ## C19: the task's job key -/

/-- C19: in every state that a chain of mutator calls reaches from `NewJob()`, the job key
pointer of the task configuration is the pointer that `JobKey()` returns, so both read the
same role, environment and name; and a call of `Environment`, `Role` or `Name` in such a
state completes and is read back through both. -/
theorem C19_task_key_is_the_job_key (calls : List Call) (j : AuroraJob)
    (h : runAll calls NewJob = some j) :
    j.TaskConfig.Job = j.JobKey ∧
    ∃ k, j.key = some k ∧ load j.heap.jobKeys j.TaskConfig.Job = some k ∧
      (∀ env, ∃ j', j.Environment env = some j' ∧
        j'.key = some { k with Environment := env } ∧
        load j'.heap.jobKeys j'.TaskConfig.Job = some { k with Environment := env }) ∧
      (∀ role, ∃ j', j.Role role = some j' ∧
        j'.key = some { k with Role := role } ∧
        load j'.heap.jobKeys j'.TaskConfig.Job = some { k with Role := role }) ∧
      (∀ name, ∃ j', j.Name name = some j' ∧
        j'.key = some { k with Name := name } ∧
        load j'.heap.jobKeys j'.TaskConfig.Job = some { k with Name := name }) := by
  have hs := runAll_shaped calls NewJob j AuroraJob.Shaped_NewJob h
  have hjk : ∀ j' : AuroraJob, j'.Shaped → load j'.heap.jobKeys j'.TaskConfig.Job = j'.key := by
    intro j' hs'
    simp [AuroraJob.TaskConfig, AuroraJob.key, AuroraJob.JobKey, hs'.key, hs'.job]
  obtain ⟨k, hk⟩ : ∃ k, j.key = some k := by
    match hkeys : j.heap.jobKeys, hs.keys with
    | [key], _ => exact ⟨key, by simp [AuroraJob.key, AuroraJob.JobKey, load, hs.key, hkeys]⟩
  refine ⟨by simp [AuroraJob.TaskConfig, AuroraJob.JobKey, hs.key, hs.job], k, hk,
    (hjk j hs).trans hk, ?_, ?_, ?_⟩
  · intro env
    obtain ⟨j', hj'⟩ := Call.run_isSome (.Environment env) j hs (fun _ hc => by cases hc)
    have h1 := (Call.run_key_owner _ j j' k hj' hk).2.1 env rfl
    exact ⟨j', hj', h1, (hjk j' (Call.run_shaped _ j j' hs hj')).trans h1⟩
  · intro role
    obtain ⟨j', hj'⟩ := Call.run_isSome (.Role role) j hs (fun _ hc => by cases hc)
    have h1 := ((Call.run_key_owner _ j j' k hj' hk).1 role rfl).1
    exact ⟨j', hj', h1, (hjk j' (Call.run_shaped _ j j' hs hj')).trans h1⟩
  · intro name
    obtain ⟨j', hj'⟩ := Call.run_isSome (.Name name) j hs (fun _ hc => by cases hc)
    have h1 := (Call.run_key_owner _ j j' k hj' hk).2.2.1 name rfl
    exact ⟨j', hj', h1, (hjk j' (Call.run_shaped _ j j' hs hj')).trans h1⟩

/-- C19 on a chain of two calls. -/
theorem C19_task_key_is_the_job_key_witness :
    runAll [.AddLabel "k" "v", .AddPorts 1] NewJob = some ((NewJob.AddLabel "k" "v").AddPorts 1) ∧
    ((NewJob.AddLabel "k" "v").AddPorts 1).TaskConfig.Job =
      ((NewJob.AddLabel "k" "v").AddPorts 1).JobKey :=
  ⟨rfl, (C19_task_key_is_the_job_key [.AddLabel "k" "v", .AddPorts 1] _ rfl).1⟩

/-! ## C20: `AddPorts` is additive -/

/-- C20 (amended): for every builder state whose port counter `c` is an `int`, and all
`a, b ≥ 0` with `c + a + b` not above the largest `int`, `AddPorts(a)` followed by
`AddPorts(b)` yields the same builder state as `AddPorts(a + b)`, and `AddPorts(0)` leaves
the builder state unchanged. -/
theorem C20_AddPorts_is_additive (j : AuroraJob) (a b : Int) (ha : 0 ≤ a) (hb : 0 ≤ b)
    (hlo : minInt ≤ j.portCount) (hhi : j.portCount + a + b ≤ maxInt) :
    (j.AddPorts a).AddPorts b = j.AddPorts (a + b) ∧ j.AddPorts 0 = j := by
  have e1 := AuroraJob.AddPorts_eq j a ha hlo (by omega)
  have hc1 : (j.AddPorts a).portCount = j.portCount + a := by rw [e1]
  have e2 := AuroraJob.AddPorts_eq (j.AddPorts a) b hb (by omega) (by omega)
  have e3 := AuroraJob.AddPorts_eq j (a + b) (by omega) hlo (by omega)
  have e0 := AuroraJob.AddPorts_eq j 0 (le_refl 0) hlo (by omega)
  refine ⟨?_, ?_⟩
  · rw [e2, e3, e1]
    have hab : (a + b).toNat = a.toNat + b.toNat := by omega
    simp only [hab]
    have hmax : a ⊔ 0 = a := max_eq_left ha
    simp [List.range_add, List.map_map, Function.comp_def, Int.add_assoc, Nat.add_assoc, hmax]
  · rw [e0]
    simp

/-- C20 on a fresh builder: `AddPorts(1)` then `AddPorts(2)` is `AddPorts(3)`. -/
theorem C20_AddPorts_is_additive_witness :
    ((0 : Int) ≤ 1 ∧ (0 : Int) ≤ 2 ∧ minInt ≤ NewJob.portCount ∧
      NewJob.portCount + 1 + 2 ≤ maxInt) ∧
    (NewJob.AddPorts 1).AddPorts 2 = NewJob.AddPorts (1 + 2) :=
  ⟨by decide,
    (C20_AddPorts_is_additive NewJob 1 2 (by decide) (by decide) (by decide) (by decide)).1⟩

/-- C20 as stated fails when the counter overflows: with the counter at 2,
`AddPorts(9223372036854775806)` wraps the counter and appends nothing, and the following
`AddPorts(1)` appends one entry, while `AddPorts(9223372036854775807)` alone appends
nothing. -/
theorem C20_counterexample_counter_overflow :
    (0 : Int) ≤ 9223372036854775806 ∧ (0 : Int) ≤ 1 ∧
    (9223372036854775806 : Int) + 1 ≤ maxInt ∧
    (((NewJob.AddPorts 2).AddPorts 9223372036854775806).AddPorts 1).Resources.length = 6 ∧
    ((NewJob.AddPorts 2).AddPorts (9223372036854775806 + 1)).Resources.length = 5 ∧
    ((NewJob.AddPorts 2).AddPorts 9223372036854775806).AddPorts 1 ≠
      (NewJob.AddPorts 2).AddPorts (9223372036854775806 + 1) := by
  decide

end realis
